import Mathlib

/-!
# benchmark.h: measurement, comparison and report engine

A shallow embedding of `src/include/benchmark.h` (namespace `benchmark`).

* The program state a measurement sees is a `World`: the reading of
  `std::chrono::system_clock` (in ticks of one nanosecond) together with an arbitrary
  store. A callable is any function `World σ → World σ`; the arguments that the C++
  code forwards (`args...`) are bound into the callable.
* `TimeTp::rep` is a signed 64-bit integer; its arithmetic is `Int` arithmetic reduced
  into the signed 64-bit range by `wrap64`.
* `long double` values are `LongDouble`: a rational, the two infinities, or NaN. The
  quotient computed by `mean` is rounded to the nearest number with a 64-bit significand
  (`LongDouble.round_div`), as the x87 extended format does.
* `std::map<long double, V>` is the list of its entries in iteration (ascending key)
  order; `StdMap.assign` is `m[k] = v`.
* The output sink is the text written to it so far.
-/

namespace benchmark

/-! ## Resolutions and `duration_type_name` -/

/-- The type argument `TimeTp`: one of the four `std::chrono` durations the header
specialises on, or any other duration type. -/
inductive TimeTp where
  | nanoseconds
  | microseconds
  | milliseconds
  | seconds
  | other (ticksPerUnit : Nat)
  deriving DecidableEq, Repr

/-- Number of system-clock ticks (nanoseconds) in one unit of the resolution; `other k`
stands for a duration type whose unit is `k` ticks. -/
def TimeTp.ticks : TimeTp → Nat
  | .nanoseconds => 1
  | .microseconds => 1000
  | .milliseconds => 1000000
  | .seconds => 1000000000
  | .other k => k

/-- The primary template of `duration_type_name` and its four specialisations. -/
def duration_type_name : TimeTp → String
  | .nanoseconds => "ns"
  | .microseconds => "us"
  | .milliseconds => "ms"
  | .seconds => "s"
  | .other _ => "/"

/-! ## Machine numbers -/

/-- Reduction of an integer into the range of a signed 64-bit `rep`. -/
def wrap64 (x : Int) : Int := (x + 2 ^ 63) % 2 ^ 64 - 2 ^ 63

/-- Values of `long double` that the header computes and compares. -/
inductive LongDouble where
  | finite (q : ℚ)
  | posInf
  | negInf
  | nan
  deriving DecidableEq

namespace LongDouble

/-- The comparison `a < b` of two `long double` values (false whenever one is NaN). -/
def lt : LongDouble → LongDouble → Bool
  | finite a, finite b => decide (a < b)
  | finite _, posInf => true
  | negInf, finite _ => true
  | negInf, posInf => true
  | _, _ => false

/-- The comparison `a <= b` of two `long double` values (false whenever one is NaN). -/
def le : LongDouble → LongDouble → Bool
  | finite a, finite b => decide (a ≤ b)
  | finite _, posInf => true
  | negInf, finite _ => true
  | negInf, posInf => true
  | posInf, posInf => true
  | negInf, negInf => true
  | _, _ => false

/-- Whether `a / b < 2 ^ e`, for positive `b`. -/
def below_pow2 (a b : Nat) (e : Int) : Bool :=
  decide (a * 2 ^ (-e).toNat < b * 2 ^ e.toNat)

/-- The binary exponent of `a / b` for positive `a` and `b`: the `e` with
`2 ^ e <= a / b < 2 ^ (e + 1)`. -/
def exponent (a b : Nat) : Int :=
  if below_pow2 a b ((Nat.log2 a : Int) - (Nat.log2 b : Int)) then
    (Nat.log2 a : Int) - (Nat.log2 b : Int) - 1
  else (Nat.log2 a : Int) - (Nat.log2 b : Int)

/-- The integer nearest to `num / den`, the even one of the two when `num / den` lies
half way between two integers. -/
def round_half_even (num den : Nat) : Nat :=
  if 2 * (num % den) < den then num / den
  else if den < 2 * (num % den) then num / den + 1
  else if (num / den) % 2 = 0 then num / den
  else num / den + 1

/-- The 64-bit significand of the `long double` nearest to `a / b` whose binary exponent
is `e`: `a / b * 2 ^ (63 - e)` rounded to an integer. -/
def significand (a b : Nat) (e : Int) : Nat :=
  round_half_even (a * 2 ^ (63 - e).toNat) (b * 2 ^ (e - 63).toNat)

/-- The quotient `sum / n` of two exactly converted integers as the `long double`
division computes it for `n > 0`: rounded to the nearest number `m * 2 ^ (e - 63)` with
a 64-bit significand `m`, ties to even (the x87 extended format; the exponent range is
not a limit for a 64-bit `sum` and `n`). -/
def round_div (sum : Int) (n : Nat) : ℚ :=
  if sum = 0 then 0
  else
    let e := exponent sum.natAbs n
    let m := significand sum.natAbs n e
    let v : ℚ := ((m * 2 ^ (e - 63).toNat : Nat) : ℚ) / ((2 ^ (63 - e).toNat : Nat) : ℚ)
    if sum < 0 then -v else v

/-- The quotient `sum / static_cast<long double>(num_iters)`. -/
def ofDiv (sum : Int) (num_iters : Nat) : LongDouble :=
  if num_iters = 0 then
    if 0 < sum then posInf else if sum < 0 then negInf else nan
  else finite (round_div sum num_iters)

end LongDouble

/-! ## The world and callables -/

/-- What a measurement can observe and a callable can change. -/
structure World (σ : Type) where
  clock : Int
  store : σ
  deriving DecidableEq

/-- A unit of work with its arguments bound. -/
abbrev Callable (σ : Type) := World σ → World σ

/-! ## `measure<TimeTp>` -/

namespace measure

/-- Single-call overload of `measure<TimeTp>::once`. -/
def once {σ : Type} (tp : TimeTp) (func : Callable σ) (w : World σ) : Int × World σ :=
  let begin_ := w.clock
  let w1 := func w
  let end_ := w1.clock
  let casted_duration := Int.tdiv (wrap64 (end_ - begin_)) (tp.ticks : Int)
  (casted_duration, w1)

/-- Vector overload of `measure<TimeTp>::once` (the initializer-list overload forwards
to it). Its body declares the result `durations` as a `const std::vector` and then
assigns `durations[i] = once(funcs[i], args...)` in the loop. An assignment to an
element of a const vector is ill-formed, so the overload cannot be instantiated for any
arguments: there is no call that returns. `none` stands for that. -/
def once_vec {σ : Type} (_tp : TimeTp) (_funcs : List (Callable σ)) (_w : World σ) :
    Option (List Int × World σ) :=
  none

/-- The counts returned by `n` successive calls of the single-call `once` on `func`,
first to last, starting in world `w`. -/
def samples {σ : Type} (tp : TimeTp) (func : Callable σ) : Nat → World σ → List Int
  | 0, _ => []
  | n + 1, w => (once tp func w).1 :: samples tp func n (once tp func w).2

/-- Single-callable overload of `measure<TimeTp>::mean`. -/
def mean {σ : Type} (tp : TimeTp) (num_iters : Nat) (func : Callable σ) (w : World σ) :
    LongDouble × World σ :=
  let acc := (List.range' 1 (num_iters - 1)).foldl
    (fun (st : Int × World σ) (_ : Nat) =>
      let r := once tp func st.2
      (wrap64 (st.1 + r.1), r.2))
    (once tp func w)
  (LongDouble.ofDiv acc.1 num_iters, acc.2)

/-- Vector overload of `measure<TimeTp>::mean`: entry `i` is the mean of `funcs[i]`. -/
def mean_vec {σ : Type} (tp : TimeTp) (num_iters : Nat) :
    List (Callable σ) → World σ → List LongDouble × World σ
  | [], w => ([], w)
  | func :: funcs, w =>
    let r := mean tp num_iters func w
    let rs := mean_vec tp num_iters funcs r.2
    (r.1 :: rs.1, rs.2)

end measure

/-! ## `std::map`, `std::min_element`, `std::max_element` -/

namespace StdMap

/-- The statement `m[k] = v` on a `std::map` ordered by `lt`. -/
def assign {K V : Type} (lt : K → K → Bool) (k : K) (v : V) : List (K × V) → List (K × V)
  | [] => [(k, v)]
  | (k', v') :: rest =>
    if lt k k' then (k, v) :: (k', v') :: rest
    else if lt k' k then (k', v') :: assign lt k v rest
    else (k', v) :: rest

end StdMap

/-- Loop of `std::min_element`: `i` is the position of `first`. -/
def min_element_loop : List LongDouble → Nat → Nat → LongDouble → Nat
  | [], _, smallest, _ => smallest
  | x :: xs, i, smallest, sv =>
    if LongDouble.lt x sv then min_element_loop xs (i + 1) i x
    else min_element_loop xs (i + 1) smallest sv

/-- Position `std::min_element(d.begin(), d.end()) - d.begin()`. -/
def min_element : List LongDouble → Nat
  | [] => 0
  | x :: xs => min_element_loop xs 1 0 x

/-- Loop of `std::max_element`: `i` is the position of `first`. -/
def max_element_loop : List LongDouble → Nat → Nat → LongDouble → Nat
  | [], _, largest, _ => largest
  | x :: xs, i, largest, lv =>
    if LongDouble.lt lv x then max_element_loop xs (i + 1) i x
    else max_element_loop xs (i + 1) largest lv

/-- Position `std::max_element(d.begin(), d.end()) - d.begin()`. -/
def max_element : List LongDouble → Nat
  | [] => 0
  | x :: xs => max_element_loop xs 1 0 x

/-! ## `compare` -/

namespace compare

/-- Vector overload of `compare::fastest`. -/
def fastest {σ : Type} (num_iters : Nat) (funcs : List (Callable σ)) (w : World σ) :
    Nat × World σ :=
  let r := measure.mean_vec .nanoseconds num_iters funcs w
  (min_element r.1, r.2)

/-- Vector overload of `compare::slowest`. -/
def slowest {σ : Type} (num_iters : Nat) (funcs : List (Callable σ)) (w : World σ) :
    Nat × World σ :=
  let r := measure.mean_vec .nanoseconds num_iters funcs w
  (max_element r.1, r.2)

/-- The map that the first loop of `compare::sort` builds from the durations. -/
def sorted_map (n : Nat) (durations : List LongDouble) : List (LongDouble × Nat) :=
  (List.range n).foldl
    (fun m i => StdMap.assign LongDouble.lt (durations.getD i (LongDouble.finite 0)) i m) []

/-- Vector overload of `compare::sort`. -/
def sort {σ : Type} (num_iters : Nat) (funcs : List (Callable σ)) (w : World σ) :
    List Nat × World σ :=
  let r := measure.mean_vec .nanoseconds num_iters funcs w
  ((sorted_map funcs.length r.1).map Prod.snd, r.2)

end compare

/-! ## `report<TimeTp>` -/

namespace report

/-- One line written by `report`: `name, num_iters, value, unit` and a line break.
`fmt` is the stream's conversion of a `long double` to text. -/
def line (fmt : LongDouble → String) (tp : TimeTp) (name : String) (num_iters : Nat)
    (value : LongDouble) : String :=
  name ++ ", " ++ toString num_iters ++ ", " ++ fmt value ++ ", " ++ duration_type_name tp ++ "\n"

/-- The function `report<TimeTp>::time`. -/
def time {σ : Type} (fmt : LongDouble → String) (tp : TimeTp) (os : String) (name : String)
    (num_iters : Nat) (func : Callable σ) (w : World σ) : String × World σ :=
  let r := measure.mean tp num_iters func w
  (os ++ line fmt tp name num_iters r.1, r.2)

/-- The map that the first loop of `report::comparison` builds; `none` when `names[i]`
is read past the end of `names`. -/
def sorted_map (names : List String) (durations : List LongDouble) :
    Option (List (LongDouble × String)) :=
  (List.range durations.length).foldlM
    (fun m i =>
      match names[i]? with
      | some name => some (StdMap.assign LongDouble.lt (durations.getD i (LongDouble.finite 0)) name m)
      | none => none) []

/-- Vector overload of `report<TimeTp>::comparison`. -/
def comparison {σ : Type} (fmt : LongDouble → String) (tp : TimeTp) (os : String)
    (names : List String) (num_iters : Nat) (funcs : List (Callable σ)) (w : World σ) :
    Option (String × World σ) :=
  let r := measure.mean_vec tp num_iters funcs w
  match sorted_map names r.1 with
  | none => none
  | some m =>
    some (m.foldl (fun out p => out ++ line fmt tp p.2 num_iters p.1) os, r.2)

end report

/-! ## Concrete worlds used to evaluate the definitions -/

/-- A callable that takes `k` ticks. -/
def takes (k : Int) : Callable Unit := fun w => { w with clock := w.clock + k }

/-- A callable whose successive runs take the times listed in the store (and then none). -/
def scripted : Callable (List Int) := fun w =>
  match w.store with
  | [] => w
  | k :: ks => { clock := w.clock + k, store := ks }

/-- A conversion of `long double` to text for evaluating reports on concrete inputs:
integral values print as the integer, as the stream prints them below a million. -/
def fmt_sample : LongDouble → String
  | .finite q => if q.den = 1 then toString q.num else toString q.num ++ "/" ++ toString q.den
  | .posInf => "inf"
  | .negInf => "-inf"
  | .nan => "nan"

/-- A callable that takes `k` ticks and records its identifier `id` in the store each
time it runs. -/
def logged (id : Nat) (k : Int) : Callable (List Nat) := fun w =>
  { clock := w.clock + k, store := w.store ++ [id] }

/-- Running a list of callables one after the other, first to last. -/
def run_all {σ : Type} (calls : List (Callable σ)) (w : World σ) : World σ :=
  calls.foldl (fun w1 f => f w1) w

/-- The executions in the order `f_0` (`num_iters` times), then `f_1` (`num_iters`
times), and so on to the last callable. -/
def execution_order {σ : Type} (num_iters : Nat) (funcs : List (Callable σ)) :
    List (Callable σ) :=
  (funcs.map (fun f => List.replicate num_iters f)).flatten

/-- The world at clock reading zero. -/
def w0 : World Unit := { clock := 0, store := () }

end benchmark

namespace benchmark

/-! ## The order on `long double` values -/

theorem LongDouble.lt_transitive {a b c : LongDouble} (hab : LongDouble.lt a b = true)
    (hbc : LongDouble.lt b c = true) : LongDouble.lt a c = true := by
  cases a <;> cases b <;> cases c <;> simp_all [LongDouble.lt]
  exact lt_trans hab hbc

theorem LongDouble.lt_irreflexive (a : LongDouble) : LongDouble.lt a a = false := by
  cases a <;> simp [LongDouble.lt]

theorem LongDouble.lt_asymmetric {a b : LongDouble} (hab : LongDouble.lt a b = true) :
    LongDouble.lt b a = false := by
  cases a <;> cases b <;> simp_all [LongDouble.lt]
  exact le_of_lt hab

theorem LongDouble.lt_or_eq_or_gt {a b : LongDouble} (ha : a ≠ LongDouble.nan)
    (hb : b ≠ LongDouble.nan) :
    LongDouble.lt a b = true ∨ a = b ∨ LongDouble.lt b a = true := by
  cases a <;> cases b <;> simp_all [LongDouble.lt]
  exact lt_trichotomy _ _

theorem LongDouble.le_iff_not_lt {a b : LongDouble} (ha : a ≠ LongDouble.nan)
    (hb : b ≠ LongDouble.nan) :
    LongDouble.le a b = true ↔ LongDouble.lt b a = false := by
  cases a <;> cases b <;> simp_all [LongDouble.lt, LongDouble.le]

theorem LongDouble.le_of_lt_true {a b : LongDouble} (h : LongDouble.lt a b = true) :
    LongDouble.le a b = true := by
  cases a <;> cases b <;> simp_all [LongDouble.lt, LongDouble.le]
  exact h.le

theorem LongDouble.le_refl_of_ne_nan {a : LongDouble} (ha : a ≠ LongDouble.nan) :
    LongDouble.le a a = true := by
  cases a <;> simp_all [LongDouble.le]

theorem LongDouble.le_antisymmetric {a b : LongDouble} (hab : LongDouble.le a b = true)
    (hba : LongDouble.le b a = true) : a = b := by
  cases a <;> cases b <;> simp_all [LongDouble.le]
  exact le_antisymm hab hba

theorem LongDouble.lt_le_transitive {a b c : LongDouble} (hab : LongDouble.lt a b = true)
    (hbc : LongDouble.le b c = true) : LongDouble.lt a c = true := by
  cases a <;> cases b <;> cases c <;> simp_all [LongDouble.lt, LongDouble.le]
  exact lt_of_lt_of_le hab hbc

theorem LongDouble.le_transitive {a b c : LongDouble} (hab : LongDouble.le a b = true)
    (hbc : LongDouble.le b c = true) : LongDouble.le a c = true := by
  cases a <;> cases b <;> cases c <;> simp_all [LongDouble.le]
  exact le_trans hab hbc

/-! ## `m[k] = v` on the entry list -/

theorem StdMap.key_mem_assign {V : Type} (k : LongDouble) (v : V) (m : List (LongDouble × V))
    (p : LongDouble × V) (hp : p ∈ StdMap.assign LongDouble.lt k v m) :
    p.1 = k ∨ ∃ q ∈ m, q.1 = p.1 := by
  induction m with
  | nil =>
    simp [StdMap.assign] at hp
    exact Or.inl (by rw [hp])
  | cons hd tl ih =>
    obtain ⟨k', v'⟩ := hd
    simp only [StdMap.assign] at hp
    split at hp
    · rcases List.mem_cons.1 hp with h | h
      · exact Or.inl (by rw [h])
      · exact Or.inr ⟨p, h, rfl⟩
    · split at hp
      · rcases List.mem_cons.1 hp with h | h
        · exact Or.inr ⟨(k', v'), List.mem_cons_self _ _, by rw [h]⟩
        · rcases ih h with h1 | ⟨q, hq, hq1⟩
          · exact Or.inl h1
          · exact Or.inr ⟨q, List.mem_cons_of_mem _ hq, hq1⟩
      · rcases List.mem_cons.1 hp with h | h
        · exact Or.inr ⟨(k', v'), List.mem_cons_self _ _, by rw [h]⟩
        · exact Or.inr ⟨p, List.mem_cons_of_mem _ h, rfl⟩

/-- The entries stay in strictly ascending key order. -/
theorem StdMap.assign_pairwise {V : Type} (k : LongDouble) (v : V)
    (m : List (LongDouble × V))
    (hm : m.Pairwise (fun a b => LongDouble.lt a.1 b.1 = true)) :
    (StdMap.assign LongDouble.lt k v m).Pairwise (fun a b => LongDouble.lt a.1 b.1 = true) := by
  induction m with
  | nil => simp [StdMap.assign]
  | cons hd tl ih =>
    obtain ⟨k', v'⟩ := hd
    rw [List.pairwise_cons] at hm
    simp only [StdMap.assign]
    split
    · rename_i hlt
      refine List.pairwise_cons.2 ⟨?_, List.pairwise_cons.2 hm⟩
      intro p hp
      rcases List.mem_cons.1 hp with h | h
      · rw [h]; exact hlt
      · exact LongDouble.lt_transitive hlt (hm.1 p h)
    · split
      · rename_i hgt
        refine List.pairwise_cons.2 ⟨?_, ih hm.2⟩
        intro p hp
        rcases StdMap.key_mem_assign k v tl p hp with h | ⟨q, hq, hq1⟩
        · rw [h]; exact hgt
        · rw [← hq1]; exact hm.1 q hq
      · exact List.pairwise_cons.2 ⟨fun p hp => hm.1 p hp, hm.2⟩

/-- A key that compares unequal to every key present is inserted as a new entry. -/
theorem StdMap.assign_perm {V : Type} (k : LongDouble) (v : V) (m : List (LongDouble × V))
    (hk : ∀ p ∈ m, LongDouble.lt k p.1 = true ∨ LongDouble.lt p.1 k = true) :
    (StdMap.assign LongDouble.lt k v m).Perm ((k, v) :: m) := by
  induction m with
  | nil => simp [StdMap.assign]
  | cons hd tl ih =>
    obtain ⟨k', v'⟩ := hd
    simp only [StdMap.assign]
    split
    · exact List.Perm.refl _
    · split
      · exact ((ih (fun p hp => hk p (List.mem_cons_of_mem _ hp))).cons (k', v')).trans
          (List.Perm.swap _ _ _)
      · rename_i h1 h2
        rcases hk (k', v') (List.mem_cons_self _ _) with h | h
        · exact absurd h h1
        · exact absurd h h2

/-- Assigning commutes with a relabelling of the values. -/
theorem StdMap.assign_map {V W : Type} (g : V → W) (k : LongDouble) (v : V)
    (m : List (LongDouble × V)) :
    StdMap.assign LongDouble.lt k (g v) (m.map (fun p => (p.1, g p.2))) =
      (StdMap.assign LongDouble.lt k v m).map (fun p => (p.1, g p.2)) := by
  induction m with
  | nil => simp [StdMap.assign]
  | cons hd tl ih =>
    obtain ⟨k', v'⟩ := hd
    simp only [StdMap.assign, List.map_cons]
    split
    · simp
    · split
      · simp [ih]
      · simp

/-! ## The map built by `compare::sort` -/

theorem compare.sorted_map_succ (n : Nat) (d : List LongDouble) :
    compare.sorted_map (n + 1) d =
      StdMap.assign LongDouble.lt (d.getD n (LongDouble.finite 0)) n (compare.sorted_map n d) := by
  simp [compare.sorted_map, List.range_succ, List.foldl_append]

theorem compare.sorted_map_pairwise (n : Nat) (d : List LongDouble) :
    (compare.sorted_map n d).Pairwise (fun a b => LongDouble.lt a.1 b.1 = true) := by
  induction n with
  | zero => simp [compare.sorted_map]
  | succ n ih =>
    rw [compare.sorted_map_succ]
    exact StdMap.assign_pairwise _ _ _ ih

theorem LongDouble.getD_ne_nan (d : List LongDouble) (hnan : LongDouble.nan ∉ d) (i : Nat) :
    d.getD i (LongDouble.finite 0) ≠ LongDouble.nan := by
  by_cases hi : i < d.length
  · rw [List.getD_eq_getElem d _ hi]
    intro h
    exact hnan (h ▸ List.getElem_mem hi)
  · rw [List.getD_eq_default d _ (Nat.le_of_not_lt hi)]
    intro h
    cases h

/-- With pairwise distinct durations, none of them NaN, no assignment overwrites an entry. -/
theorem compare.sorted_map_perm (d : List LongDouble) (hnan : LongDouble.nan ∉ d)
    (hd : d.Nodup) (n : Nat) (hn : n ≤ d.length) :
    (compare.sorted_map n d).Perm
      ((List.range n).map (fun i => (d.getD i (LongDouble.finite 0), i))) := by
  induction n with
  | zero => simp [compare.sorted_map]
  | succ n ih =>
    have ih1 := ih (Nat.le_of_succ_le hn)
    rw [compare.sorted_map_succ, List.range_succ, List.map_append]
    refine List.Perm.trans (StdMap.assign_perm _ _ _ ?_) ?_
    · intro p hp
      have hp1 := (ih1.mem_iff).1 hp
      obtain ⟨i, hi, hpi⟩ := List.mem_map.1 hp1
      have hin : i < n := List.mem_range.1 hi
      have hne : d.getD n (LongDouble.finite 0) ≠ p.1 := by
        rw [← hpi]
        have h1 : i < d.length := by omega
        have h2 : n < d.length := by omega
        simp only [List.getD_eq_getElem d _ h1, List.getD_eq_getElem d _ h2]
        intro h
        have := (hd.getElem_inj_iff).1 h
        omega
      have hpn : p.1 ≠ LongDouble.nan := by
        rw [← hpi]; exact LongDouble.getD_ne_nan d hnan i
      rcases LongDouble.lt_or_eq_or_gt (LongDouble.getD_ne_nan d hnan n) hpn with h | h | h
      · exact Or.inl h
      · exact absurd h hne
      · exact Or.inr h
    · exact ((ih1.cons _).trans (List.perm_append_singleton _ _).symm)

theorem measure.mean_vec_length {σ : Type} (tp : TimeTp) (num_iters : Nat)
    (funcs : List (Callable σ)) (w : World σ) :
    (measure.mean_vec tp num_iters funcs w).1.length = funcs.length := by
  induction funcs generalizing w with
  | nil => rfl
  | cons f fs ih => simp [measure.mean_vec, ih]

/-- On pairwise distinct durations without NaN the ranking is a permutation of the
positions, in strictly ascending order of duration. -/
theorem compare.sorted_map_ranking (d : List LongDouble) (hnan : LongDouble.nan ∉ d)
    (hd : d.Nodup) :
    ((compare.sorted_map d.length d).map Prod.snd).Perm (List.range d.length) ∧
    ((compare.sorted_map d.length d).map Prod.snd).Pairwise
      (fun i j => LongDouble.lt (d.getD i (LongDouble.finite 0))
        (d.getD j (LongDouble.finite 0)) = true) := by
  have hperm := compare.sorted_map_perm d hnan hd d.length (Nat.le_refl _)
  constructor
  · have := hperm.map Prod.snd
    simpa [List.map_map, Function.comp_def] using this
  · rw [List.pairwise_map]
    refine (compare.sorted_map_pairwise d.length d).imp_of_mem ?_
    intro a b ha hb hab
    obtain ⟨i, _, hai⟩ := List.mem_map.1 ((hperm.mem_iff).1 ha)
    obtain ⟨j, _, hbj⟩ := List.mem_map.1 ((hperm.mem_iff).1 hb)
    rw [← hai, ← hbj] at hab ⊢
    exact hab

/-! ## `std::min_element` and `std::max_element` -/

theorem LongDouble.le_of_not_lt {a b : LongDouble} (ha : a ≠ LongDouble.nan)
    (hb : b ≠ LongDouble.nan) (h : ¬ LongDouble.lt b a = true) : LongDouble.le a b = true :=
  (LongDouble.le_iff_not_lt ha hb).2 (by simpa using h)

/-- Invariant of the loop of `std::min_element`: `pre` is the part already visited. -/
theorem min_element_loop_spec (xs : List LongDouble) :
    ∀ (pre : List LongDouble) (s : Nat) (sv : LongDouble),
      LongDouble.nan ∉ pre ++ xs → pre[s]? = some sv →
      (∀ (j : Nat) (x : LongDouble), pre[j]? = some x → LongDouble.le sv x = true) →
      (∀ (j : Nat) (x : LongDouble), j < s → pre[j]? = some x → LongDouble.lt sv x = true) →
      ∃ m, (pre ++ xs)[min_element_loop xs pre.length s sv]? = some m ∧
        (∀ (j : Nat) (x : LongDouble), (pre ++ xs)[j]? = some x → LongDouble.le m x = true) ∧
        (∀ (j : Nat) (x : LongDouble), j < min_element_loop xs pre.length s sv → (pre ++ xs)[j]? = some x →
          LongDouble.lt m x = true) := by
  induction xs with
  | nil =>
    intro pre s sv _ hs hmin hfirst
    simp only [min_element_loop, List.append_nil]
    exact ⟨sv, hs, hmin, hfirst⟩
  | cons x xs ih =>
    intro pre s sv hnan hs hmin hfirst
    have hsl : s < pre.length := (List.getElem?_eq_some_iff.1 hs).1
    have hxn : x ≠ LongDouble.nan := fun h => hnan (by simp [h])
    have hsvn : sv ≠ LongDouble.nan := by
      intro h
      apply hnan
      rw [← h]
      exact List.mem_append_left _ (List.getElem?_mem hs)
    have hnan1 : LongDouble.nan ∉ (pre ++ [x]) ++ xs := by simpa using hnan
    have hstep := ih (pre ++ [x])
    simp only [List.append_assoc, List.singleton_append, List.length_append,
      List.length_singleton] at hstep
    simp only [min_element_loop]
    split
    · rename_i hlt
      refine hstep pre.length x (by simpa using hnan) (by simp) ?_ ?_
      · intro j y hj
        by_cases hjl : j < pre.length
        · rw [List.getElem?_append_left hjl] at hj
          exact LongDouble.le_of_lt_true (LongDouble.lt_le_transitive hlt (hmin j y hj))
        · have hy : y = x := by
            have hj1 := (List.getElem?_eq_some_iff.1 hj).1
            simp only [List.length_append, List.length_singleton] at hj1
            have : j = pre.length := by omega
            subst this
            simpa using hj.symm
          rw [hy]
          exact LongDouble.le_refl_of_ne_nan hxn
      · intro j y hjl hj
        rw [List.getElem?_append_left hjl] at hj
        exact LongDouble.lt_le_transitive hlt (hmin j y hj)
    · rename_i hlt
      refine hstep s sv (by simpa using hnan) ?_ ?_ ?_
      · rw [List.getElem?_append_left hsl]; exact hs
      · intro j y hj
        by_cases hjl : j < pre.length
        · rw [List.getElem?_append_left hjl] at hj
          exact hmin j y hj
        · have hy : y = x := by
            have hj1 := (List.getElem?_eq_some_iff.1 hj).1
            simp only [List.length_append, List.length_singleton] at hj1
            have : j = pre.length := by omega
            subst this
            simpa using hj.symm
          rw [hy]
          exact LongDouble.le_of_not_lt hsvn hxn hlt
      · intro j y hjs hj
        rw [List.getElem?_append_left (by omega)] at hj
        exact hfirst j y hjs hj

/-- On a non-empty vector without NaN, `std::min_element` is the first position of the
least value. -/
theorem min_element_spec (d : List LongDouble) (hne : d ≠ []) (hnan : LongDouble.nan ∉ d) :
    ∃ m, d[min_element d]? = some m ∧
      (∀ (j : Nat) (x : LongDouble), d[j]? = some x → LongDouble.le m x = true) ∧
      (∀ (j : Nat) (x : LongDouble), j < min_element d → d[j]? = some x → LongDouble.lt m x = true) := by
  cases d with
  | nil => exact absurd rfl hne
  | cons x xs =>
    have hxn : x ≠ LongDouble.nan := fun h => hnan (by simp [h])
    have h := min_element_loop_spec xs [x] 0 x (by simpa using hnan) (by simp)
      (by
        intro j y hj
        have hj1 := (List.getElem?_eq_some_iff.1 hj).1
        simp only [List.length_singleton] at hj1
        have : j = 0 := by omega
        subst this
        have hy : y = x := by simpa using hj.symm
        rw [hy]
        exact LongDouble.le_refl_of_ne_nan hxn)
      (by intro j y hj; omega)
    simpa [min_element] using h

theorem LongDouble.le_lt_transitive {a b c : LongDouble} (hab : LongDouble.le a b = true)
    (hbc : LongDouble.lt b c = true) : LongDouble.lt a c = true := by
  cases a <;> cases b <;> cases c <;> simp_all [LongDouble.lt, LongDouble.le]
  exact lt_of_le_of_lt hab hbc

/-- Invariant of the loop of `std::max_element`: `pre` is the part already visited. -/
theorem max_element_loop_spec (xs : List LongDouble) :
    ∀ (pre : List LongDouble) (s : Nat) (sv : LongDouble),
      LongDouble.nan ∉ pre ++ xs → pre[s]? = some sv →
      (∀ (j : Nat) (x : LongDouble), pre[j]? = some x → LongDouble.le x sv = true) →
      (∀ (j : Nat) (x : LongDouble), j < s → pre[j]? = some x → LongDouble.lt x sv = true) →
      ∃ m, (pre ++ xs)[max_element_loop xs pre.length s sv]? = some m ∧
        (∀ (j : Nat) (x : LongDouble), (pre ++ xs)[j]? = some x → LongDouble.le x m = true) ∧
        (∀ (j : Nat) (x : LongDouble), j < max_element_loop xs pre.length s sv →
          (pre ++ xs)[j]? = some x → LongDouble.lt x m = true) := by
  induction xs with
  | nil =>
    intro pre s sv _ hs hmax hfirst
    simp only [max_element_loop, List.append_nil]
    exact ⟨sv, hs, hmax, hfirst⟩
  | cons x xs ih =>
    intro pre s sv hnan hs hmax hfirst
    have hsl : s < pre.length := (List.getElem?_eq_some_iff.1 hs).1
    have hxn : x ≠ LongDouble.nan := fun h => hnan (by simp [h])
    have hsvn : sv ≠ LongDouble.nan := by
      intro h
      apply hnan
      rw [← h]
      exact List.mem_append_left _ (List.getElem?_mem hs)
    have hstep := ih (pre ++ [x])
    simp only [List.append_assoc, List.singleton_append, List.length_append,
      List.length_singleton] at hstep
    simp only [max_element_loop]
    split
    · rename_i hlt
      refine hstep pre.length x (by simpa using hnan) (by simp) ?_ ?_
      · intro j y hj
        by_cases hjl : j < pre.length
        · rw [List.getElem?_append_left hjl] at hj
          exact LongDouble.le_of_lt_true (LongDouble.le_lt_transitive (hmax j y hj) hlt)
        · have hy : y = x := by
            have hj1 := (List.getElem?_eq_some_iff.1 hj).1
            simp only [List.length_append, List.length_singleton] at hj1
            have : j = pre.length := by omega
            subst this
            simpa using hj.symm
          rw [hy]
          exact LongDouble.le_refl_of_ne_nan hxn
      · intro j y hjl hj
        rw [List.getElem?_append_left hjl] at hj
        exact LongDouble.le_lt_transitive (hmax j y hj) hlt
    · rename_i hlt
      refine hstep s sv (by simpa using hnan) ?_ ?_ ?_
      · rw [List.getElem?_append_left hsl]; exact hs
      · intro j y hj
        by_cases hjl : j < pre.length
        · rw [List.getElem?_append_left hjl] at hj
          exact hmax j y hj
        · have hy : y = x := by
            have hj1 := (List.getElem?_eq_some_iff.1 hj).1
            simp only [List.length_append, List.length_singleton] at hj1
            have : j = pre.length := by omega
            subst this
            simpa using hj.symm
          rw [hy]
          exact LongDouble.le_of_not_lt hxn hsvn hlt
      · intro j y hjs hj
        rw [List.getElem?_append_left (by omega)] at hj
        exact hfirst j y hjs hj

/-- On a non-empty vector without NaN, `std::max_element` is the first position of the
greatest value. -/
theorem max_element_spec (d : List LongDouble) (hne : d ≠ []) (hnan : LongDouble.nan ∉ d) :
    ∃ m, d[max_element d]? = some m ∧
      (∀ (j : Nat) (x : LongDouble), d[j]? = some x → LongDouble.le x m = true) ∧
      (∀ (j : Nat) (x : LongDouble), j < max_element d → d[j]? = some x →
        LongDouble.lt x m = true) := by
  cases d with
  | nil => exact absurd rfl hne
  | cons x xs =>
    have hxn : x ≠ LongDouble.nan := fun h => hnan (by simp [h])
    have h := max_element_loop_spec xs [x] 0 x (by simpa using hnan) (by simp)
      (by
        intro j y hj
        have hj1 := (List.getElem?_eq_some_iff.1 hj).1
        simp only [List.length_singleton] at hj1
        have : j = 0 := by omega
        subst this
        have hy : y = x := by simpa using hj.symm
        rw [hy]
        exact LongDouble.le_refl_of_ne_nan hxn)
      (by intro j y hj; omega)
    simpa [max_element] using h

theorem measure.mean_vec_ne_nil {σ : Type} (tp : TimeTp) (num_iters : Nat)
    (funcs : List (Callable σ)) (w : World σ) (hne : funcs ≠ []) :
    (measure.mean_vec tp num_iters funcs w).1 ≠ [] := by
  intro h
  have hl := measure.mean_vec_length tp num_iters funcs w
  rw [h] at hl
  exact hne (List.length_eq_zero.1 hl.symm)

/-! ## The sum computed by `measure::mean` -/

theorem wrap64_range (x : Int) : -2 ^ 63 ≤ wrap64 x ∧ wrap64 x < 2 ^ 63 := by
  simp only [wrap64]
  omega

theorem wrap64_of_range (x : Int) (h : -2 ^ 63 ≤ x ∧ x < 2 ^ 63) : wrap64 x = x := by
  simp only [wrap64]
  omega

theorem wrap64_add_wrap64 (a b : Int) : wrap64 (wrap64 a + b) = wrap64 (a + b) := by
  simp only [wrap64]
  omega

theorem Int.tdiv_range (x : Int) (t : Nat) (h : -2 ^ 63 ≤ x ∧ x < 2 ^ 63) :
    -2 ^ 63 ≤ Int.tdiv x t ∧ Int.tdiv x t < 2 ^ 63 := by
  rcases Int.le_total 0 x with hx | hx
  · rw [Int.tdiv_eq_ediv hx (Int.ofNat_nonneg t)]
    have h1 : 0 ≤ x / (t : Int) := Int.ediv_nonneg hx (Int.ofNat_nonneg t)
    have h2 : x / (t : Int) ≤ x := Int.ediv_le_self _ hx
    omega
  · have hx1 : 0 ≤ -x := by omega
    have hneg : Int.tdiv x t = -Int.tdiv (-x) t := by
      rw [Int.neg_tdiv, Int.neg_neg]
    rw [hneg, Int.tdiv_eq_ediv hx1 (Int.ofNat_nonneg t)]
    have h1 : 0 ≤ -x / (t : Int) := Int.ediv_nonneg hx1 (Int.ofNat_nonneg t)
    have h2 : -x / (t : Int) ≤ -x := Int.ediv_le_self _ hx1
    omega

theorem measure.once_range {σ : Type} (tp : TimeTp) (func : Callable σ) (w : World σ) :
    -2 ^ 63 ≤ (measure.once tp func w).1 ∧ (measure.once tp func w).1 < 2 ^ 63 := by
  simp only [measure.once]
  exact Int.tdiv_range _ _ (wrap64_range _)

/-- The accumulation loop of `mean`: `k` further measurements added to `a`. -/
theorem measure.mean_loop {σ : Type} (tp : TimeTp) (func : Callable σ) (k : Nat) :
    ∀ (s : Nat) (a : Int) (w : World σ),
      wrap64 ((List.range' s k).foldl
        (fun (st : Int × World σ) (_ : Nat) =>
          (wrap64 (st.1 + (measure.once tp func st.2).1), (measure.once tp func st.2).2))
        (a, w)).1 = wrap64 (a + (measure.samples tp func k w).sum) := by
  induction k with
  | zero => intro s a w; simp [measure.samples]
  | succ k ih =>
    intro s a w
    simp only [List.range'_succ, List.foldl_cons, measure.samples, List.sum_cons]
    rw [ih, wrap64_add_wrap64, Int.add_assoc]

theorem measure.mean_loop_range {σ : Type} (tp : TimeTp) (func : Callable σ) (k : Nat) :
    ∀ (s : Nat) (a : Int) (w : World σ), (-2 ^ 63 ≤ a ∧ a < 2 ^ 63) →
      -2 ^ 63 ≤ ((List.range' s k).foldl
        (fun (st : Int × World σ) (_ : Nat) =>
          (wrap64 (st.1 + (measure.once tp func st.2).1), (measure.once tp func st.2).2))
        (a, w)).1 ∧
      ((List.range' s k).foldl
        (fun (st : Int × World σ) (_ : Nat) =>
          (wrap64 (st.1 + (measure.once tp func st.2).1), (measure.once tp func st.2).2))
        (a, w)).1 < 2 ^ 63 := by
  induction k with
  | zero => intro s a w h; simpa using h
  | succ k ih =>
    intro s a w _
    simp only [List.range'_succ, List.foldl_cons]
    exact ih _ _ _ (wrap64_range _)

/-- For `num_iters >= 1` the variable `sum` of `mean` holds the sum of the `num_iters`
samples, reduced into the signed 64-bit range. -/
theorem measure.mean_eq_ofDiv_samples {σ : Type} (tp : TimeTp) (num_iters : Nat)
    (func : Callable σ) (w : World σ) (hn : 1 ≤ num_iters) :
    (measure.mean tp num_iters func w).1 =
      LongDouble.ofDiv (wrap64 (measure.samples tp func num_iters w).sum) num_iters := by
  obtain ⟨k, rfl⟩ : ∃ k, num_iters = k + 1 := ⟨num_iters - 1, by omega⟩
  simp only [measure.mean, Nat.add_sub_cancel]
  congr 1
  have h1 := measure.mean_loop tp func k 1 (measure.once tp func w).1 (measure.once tp func w).2
  have h2 := measure.mean_loop_range tp func k 1 (measure.once tp func w).1
    (measure.once tp func w).2 (measure.once_range tp func w)
  rw [wrap64_of_range _ h2] at h1
  rw [h1]
  simp [measure.samples]

/-- For `num_iters >= 1` every mean is finite, hence not NaN. -/
theorem measure.mean_vec_no_nan {σ : Type} (tp : TimeTp) (num_iters : Nat)
    (funcs : List (Callable σ)) (w : World σ) (hn : 1 ≤ num_iters) :
    LongDouble.nan ∉ (measure.mean_vec tp num_iters funcs w).1 := by
  induction funcs generalizing w with
  | nil => simp [measure.mean_vec]
  | cons f fs ih =>
    have h0 : num_iters ≠ 0 := by omega
    simp only [measure.mean_vec, List.mem_cons, not_or]
    refine ⟨?_, ih _⟩
    rw [measure.mean_eq_ofDiv_samples tp num_iters f w hn]
    simp [LongDouble.ofDiv, h0]

/-! ## The map and the output of `report::comparison` -/

/-- When `names` is long enough, the map of `report::comparison` is the map of
`compare::sort` with every position replaced by its name. -/
theorem report.sorted_map_fold (names : List String) (d : List LongDouble) (n : Nat)
    (hn : n ≤ names.length) :
    (List.range n).foldlM
      (fun m i =>
        match names[i]? with
        | some name =>
          some (StdMap.assign LongDouble.lt (d.getD i (LongDouble.finite 0)) name m)
        | none => none) [] =
      some ((compare.sorted_map n d).map (fun p => (p.1, names.getD p.2 ""))) := by
  induction n with
  | zero => simp [compare.sorted_map]
  | succ n ih =>
    have hlt : n < names.length := by omega
    rw [List.range_succ, List.foldlM_append, ih (by omega), compare.sorted_map_succ,
      ← StdMap.assign_map (fun i => names.getD i "")]
    simp [List.getElem?_eq_getElem hlt, List.getD_eq_getElem names "" hlt]

theorem report.sorted_map_eq (names : List String) (d : List LongDouble)
    (hn : d.length ≤ names.length) :
    report.sorted_map names d =
      some ((compare.sorted_map d.length d).map (fun p => (p.1, names.getD p.2 ""))) :=
  report.sorted_map_fold names d d.length hn

theorem String.foldl_append_eq (l : List String) :
    ∀ (a : String), l.foldl (fun r s => r ++ s) a = a ++ String.join l := by
  induction l with
  | nil => intro a; simp [String.join]
  | cons x xs ih =>
    intro a
    have hj : String.join (x :: xs) = x ++ String.join xs := by
      simp only [String.join, List.foldl_cons]
      rw [ih, ih]
      simp
    rw [List.foldl_cons, ih, hj, String.append_assoc]

theorem List.foldlM_option_congr {α β : Type} (l : List α) (f g : β → α → Option β)
    (h : ∀ i ∈ l, ∀ b, f b i = g b i) : ∀ b, l.foldlM f b = l.foldlM g b := by
  induction l with
  | nil => intro b; rfl
  | cons x xs ih =>
    intro b
    simp only [List.foldlM_cons]
    rw [h x (List.mem_cons_self _ _) b]
    cases g b x with
    | none => rfl
    | some b1 => exact ih (fun i hi => h i (List.mem_cons_of_mem _ hi)) b1

/-- Only the first `durations.size()` names are read. -/
theorem report.sorted_map_take (names : List String) (d : List LongDouble) :
    report.sorted_map (names.take d.length) d = report.sorted_map names d := by
  simp only [report.sorted_map]
  apply List.foldlM_option_congr
  intro i hi m
  have hil : i < d.length := List.mem_range.1 hi
  rw [List.getElem?_take_of_lt hil]

/-! ## Agreement of the ranking with the extreme positions -/

/-- The ranking starts with the position found by `std::min_element`. -/
theorem compare.ranking_head (d : List LongDouble) (hne : d ≠ [])
    (hnan : LongDouble.nan ∉ d) (hd : d.Nodup) :
    ((compare.sorted_map d.length d).map Prod.snd).head? = some (min_element d) := by
  obtain ⟨hperm, hpw⟩ := compare.sorted_map_ranking d hnan hd
  obtain ⟨m, hm, hle, _⟩ := min_element_spec d hne hnan
  generalize (compare.sorted_map d.length d).map Prod.snd = out at *
  obtain ⟨hi, hmv⟩ := List.getElem?_eq_some_iff.1 hm
  have hmem : min_element d ∈ out := (hperm.mem_iff).2 (List.mem_range.2 hi)
  cases out with
  | nil => cases hmem
  | cons a rest =>
    simp only [List.head?_cons, Option.some.injEq]
    rcases List.mem_cons.1 hmem with h | h
    · exact h.symm
    · exfalso
      have hlt := (List.pairwise_cons.1 hpw).1 _ h
      have ha : a < d.length := List.mem_range.1 ((hperm.mem_iff).1 (List.mem_cons_self _ _))
      rw [List.getD_eq_getElem d _ ha, List.getD_eq_getElem d _ hi, hmv] at hlt
      have hle1 := hle a d[a] (List.getElem?_eq_getElem ha)
      have hcon := LongDouble.lt_le_transitive hlt hle1
      rw [LongDouble.lt_irreflexive] at hcon
      cases hcon

/-- The ranking ends with the position found by `std::max_element`. -/
theorem compare.ranking_last (d : List LongDouble) (hne : d ≠ [])
    (hnan : LongDouble.nan ∉ d) (hd : d.Nodup) :
    ((compare.sorted_map d.length d).map Prod.snd).getLast? = some (max_element d) := by
  obtain ⟨hperm, hpw⟩ := compare.sorted_map_ranking d hnan hd
  obtain ⟨m, hm, hle, _⟩ := max_element_spec d hne hnan
  generalize (compare.sorted_map d.length d).map Prod.snd = out at *
  obtain ⟨hi, hmv⟩ := List.getElem?_eq_some_iff.1 hm
  have hmem : max_element d ∈ out.reverse :=
    List.mem_reverse.2 ((hperm.mem_iff).2 (List.mem_range.2 hi))
  have hpr := List.pairwise_reverse.2 hpw
  have hrange : ∀ i ∈ out.reverse, i < d.length := fun i hi =>
    List.mem_range.1 ((hperm.mem_iff).1 (List.mem_reverse.1 hi))
  rw [List.getLast?_eq_head?_reverse]
  generalize out.reverse = rout at *
  cases rout with
  | nil => cases hmem
  | cons a rest =>
    simp only [List.head?_cons, Option.some.injEq]
    rcases List.mem_cons.1 hmem with h | h
    · exact h.symm
    · exfalso
      have hlt := (List.pairwise_cons.1 hpr).1 _ h
      have ha : a < d.length := hrange a (List.mem_cons_self _ _)
      rw [List.getD_eq_getElem d _ ha, List.getD_eq_getElem d _ hi, hmv] at hlt
      have hle1 := hle a d[a] (List.getElem?_eq_getElem ha)
      have hcon := LongDouble.le_lt_transitive hle1 hlt
      rw [LongDouble.lt_irreflexive] at hcon
      cases hcon

/-- Among at least two pairwise distinct durations the least and the greatest are at
different positions. -/
theorem min_element_ne_max_element (d : List LongDouble) (h2 : 2 ≤ d.length)
    (hnan : LongDouble.nan ∉ d) (hd : d.Nodup) : min_element d ≠ max_element d := by
  have hne : d ≠ [] := by
    intro h
    rw [h] at h2
    simp at h2
  obtain ⟨m, hm, hle, _⟩ := min_element_spec d hne hnan
  obtain ⟨M, hM, hge, _⟩ := max_element_spec d hne hnan
  intro heq
  rw [heq, hM] at hm
  have hmM : M = m := by simpa using hm
  subst hmM
  have h0 : (0 : Nat) < d.length := by omega
  have h1 : (1 : Nat) < d.length := by omega
  have e0 : d[0] = M := LongDouble.le_antisymmetric (hge 0 _ (List.getElem?_eq_getElem h0))
    (hle 0 _ (List.getElem?_eq_getElem h0))
  have e1 : d[1] = M := LongDouble.le_antisymmetric (hge 1 _ (List.getElem?_eq_getElem h1))
    (hle 1 _ (List.getElem?_eq_getElem h1))
  have := (hd.getElem_inj_iff).1 (e0.trans e1.symm)
  omega

/-! ## Claims on `compare::sort` -/

/-- C1: for callables whose nanosecond means are pairwise distinct (and are numbers: a
mean is NaN only for `num_iters = 0` with a zero sample), `compare::sort` returns as many
indices as there are callables, every index `0..N-1` exactly once, and every adjacent
pair of the output is in strictly ascending order of mean. -/
theorem compare.sort_distinct_is_ascending_permutation {σ : Type} (num_iters : Nat)
    (funcs : List (Callable σ)) (w : World σ)
    (hnan : LongDouble.nan ∉ (measure.mean_vec TimeTp.nanoseconds num_iters funcs w).1)
    (hd : (measure.mean_vec TimeTp.nanoseconds num_iters funcs w).1.Nodup) :
    (compare.sort num_iters funcs w).1.length = funcs.length ∧
    (∀ i, i < funcs.length → (compare.sort num_iters funcs w).1.count i = 1) ∧
    (∀ k a b, (compare.sort num_iters funcs w).1[k]? = some a →
      (compare.sort num_iters funcs w).1[k + 1]? = some b →
      ∃ x y, (measure.mean_vec TimeTp.nanoseconds num_iters funcs w).1[a]? = some x ∧
        (measure.mean_vec TimeTp.nanoseconds num_iters funcs w).1[b]? = some y ∧
        LongDouble.lt x y = true) := by
  have hlen := measure.mean_vec_length TimeTp.nanoseconds num_iters funcs w
  simp only [compare.sort]
  generalize (measure.mean_vec TimeTp.nanoseconds num_iters funcs w).1 = d at *
  rw [← hlen]
  obtain ⟨hperm, hpw⟩ := compare.sorted_map_ranking d hnan hd
  generalize (compare.sorted_map d.length d).map Prod.snd = out at *
  refine ⟨by simpa using hperm.length_eq, ?_, ?_⟩
  · intro i hi
    rw [hperm.count_eq]
    exact List.count_eq_one_of_mem (List.nodup_range _) (List.mem_range.2 hi)
  · intro k a b ha hb
    obtain ⟨hk, hka⟩ := List.getElem?_eq_some_iff.1 ha
    obtain ⟨hk1, hkb⟩ := List.getElem?_eq_some_iff.1 hb
    have hlt := (List.pairwise_iff_getElem.1 hpw) k (k + 1) hk hk1 (Nat.lt_succ_self k)
    rw [hka, hkb] at hlt
    have hal : a < d.length := by
      have : a ∈ out := hka ▸ List.getElem_mem hk
      exact List.mem_range.1 ((hperm.mem_iff).1 this)
    have hbl : b < d.length := by
      have : b ∈ out := hkb ▸ List.getElem_mem hk1
      exact List.mem_range.1 ((hperm.mem_iff).1 this)
    refine ⟨d[a], d[b], List.getElem?_eq_getElem hal, List.getElem?_eq_getElem hbl, ?_⟩
    rw [List.getD_eq_getElem d _ hal, List.getD_eq_getElem d _ hbl] at hlt
    exact hlt

theorem compare.sort_distinct_is_ascending_permutation_witness :
    (compare.sort 2 [takes 5, takes 3, takes 9] w0).1 = [1, 0, 2] ∧
    ((compare.sort 2 [takes 5, takes 3, takes 9] w0).1.length = 3 ∧
    (∀ i, i < 3 → (compare.sort 2 [takes 5, takes 3, takes 9] w0).1.count i = 1) ∧
    (∀ k a b, (compare.sort 2 [takes 5, takes 3, takes 9] w0).1[k]? = some a →
      (compare.sort 2 [takes 5, takes 3, takes 9] w0).1[k + 1]? = some b →
      ∃ x y,
        (measure.mean_vec TimeTp.nanoseconds 2 [takes 5, takes 3, takes 9] w0).1[a]? = some x ∧
        (measure.mean_vec TimeTp.nanoseconds 2 [takes 5, takes 3, takes 9] w0).1[b]? = some y ∧
        LongDouble.lt x y = true)) :=
  ⟨by decide!, compare.sort_distinct_is_ascending_permutation 2 [takes 5, takes 3, takes 9] w0
    (by decide!) (by decide!)⟩

/-! ## Claims on `compare::fastest` and `compare::slowest` -/

/-- C2: for a non-empty sequence of callables (whose means are numbers: a mean is NaN
only for `num_iters = 0` with a zero sample), the index `i` returned by
`compare::fastest` is a position of the input, its mean is `<=` every mean, and every
earlier position has a strictly greater mean. -/
theorem compare.fastest_is_first_minimum {σ : Type} (num_iters : Nat)
    (funcs : List (Callable σ)) (w : World σ) (hne : funcs ≠ [])
    (hnan : LongDouble.nan ∉ (measure.mean_vec TimeTp.nanoseconds num_iters funcs w).1) :
    (compare.fastest num_iters funcs w).1 < funcs.length ∧
    ∃ m, (measure.mean_vec TimeTp.nanoseconds num_iters funcs w).1[
        (compare.fastest num_iters funcs w).1]? = some m ∧
      (∀ (j : Nat) (x : LongDouble),
        (measure.mean_vec TimeTp.nanoseconds num_iters funcs w).1[j]? = some x →
        LongDouble.le m x = true) ∧
      (∀ (j : Nat) (x : LongDouble), j < (compare.fastest num_iters funcs w).1 →
        (measure.mean_vec TimeTp.nanoseconds num_iters funcs w).1[j]? = some x →
        LongDouble.lt m x = true) := by
  have hlen := measure.mean_vec_length TimeTp.nanoseconds num_iters funcs w
  have hne1 := measure.mean_vec_ne_nil TimeTp.nanoseconds num_iters funcs w hne
  simp only [compare.fastest]
  generalize (measure.mean_vec TimeTp.nanoseconds num_iters funcs w).1 = d at *
  obtain ⟨m, hm, hle, hlt⟩ := min_element_spec d hne1 hnan
  refine ⟨?_, m, hm, hle, hlt⟩
  rw [← hlen]
  exact (List.getElem?_eq_some_iff.1 hm).1

theorem compare.fastest_is_first_minimum_witness :
    (compare.fastest 2 [takes 5, takes 3, takes 3] w0).1 = 1 ∧
    ((compare.fastest 2 [takes 5, takes 3, takes 3] w0).1 < 3 ∧
    ∃ m, (measure.mean_vec TimeTp.nanoseconds 2 [takes 5, takes 3, takes 3] w0).1[
        (compare.fastest 2 [takes 5, takes 3, takes 3] w0).1]? = some m ∧
      (∀ (j : Nat) (x : LongDouble),
        (measure.mean_vec TimeTp.nanoseconds 2 [takes 5, takes 3, takes 3] w0).1[j]? = some x →
        LongDouble.le m x = true) ∧
      (∀ (j : Nat) (x : LongDouble), j < (compare.fastest 2 [takes 5, takes 3, takes 3] w0).1 →
        (measure.mean_vec TimeTp.nanoseconds 2 [takes 5, takes 3, takes 3] w0).1[j]? = some x →
        LongDouble.lt m x = true)) :=
  ⟨by decide!, compare.fastest_is_first_minimum 2 [takes 5, takes 3, takes 3] w0
    (by simp) (by decide!)⟩

/-- C3: for a non-empty sequence of callables (whose means are numbers: a mean is NaN
only for `num_iters = 0` with a zero sample), the index `i` returned by
`compare::slowest` is a position of the input, its mean is `>=` every mean, and every
earlier position has a strictly smaller mean. -/
theorem compare.slowest_is_first_maximum {σ : Type} (num_iters : Nat)
    (funcs : List (Callable σ)) (w : World σ) (hne : funcs ≠ [])
    (hnan : LongDouble.nan ∉ (measure.mean_vec TimeTp.nanoseconds num_iters funcs w).1) :
    (compare.slowest num_iters funcs w).1 < funcs.length ∧
    ∃ m, (measure.mean_vec TimeTp.nanoseconds num_iters funcs w).1[
        (compare.slowest num_iters funcs w).1]? = some m ∧
      (∀ (j : Nat) (x : LongDouble),
        (measure.mean_vec TimeTp.nanoseconds num_iters funcs w).1[j]? = some x →
        LongDouble.le x m = true) ∧
      (∀ (j : Nat) (x : LongDouble), j < (compare.slowest num_iters funcs w).1 →
        (measure.mean_vec TimeTp.nanoseconds num_iters funcs w).1[j]? = some x →
        LongDouble.lt x m = true) := by
  have hlen := measure.mean_vec_length TimeTp.nanoseconds num_iters funcs w
  have hne1 := measure.mean_vec_ne_nil TimeTp.nanoseconds num_iters funcs w hne
  simp only [compare.slowest]
  generalize (measure.mean_vec TimeTp.nanoseconds num_iters funcs w).1 = d at *
  obtain ⟨m, hm, hle, hlt⟩ := max_element_spec d hne1 hnan
  refine ⟨?_, m, hm, hle, hlt⟩
  rw [← hlen]
  exact (List.getElem?_eq_some_iff.1 hm).1

theorem compare.slowest_is_first_maximum_witness :
    (compare.slowest 2 [takes 5, takes 9, takes 9] w0).1 = 1 ∧
    ((compare.slowest 2 [takes 5, takes 9, takes 9] w0).1 < 3 ∧
    ∃ m, (measure.mean_vec TimeTp.nanoseconds 2 [takes 5, takes 9, takes 9] w0).1[
        (compare.slowest 2 [takes 5, takes 9, takes 9] w0).1]? = some m ∧
      (∀ (j : Nat) (x : LongDouble),
        (measure.mean_vec TimeTp.nanoseconds 2 [takes 5, takes 9, takes 9] w0).1[j]? = some x →
        LongDouble.le x m = true) ∧
      (∀ (j : Nat) (x : LongDouble), j < (compare.slowest 2 [takes 5, takes 9, takes 9] w0).1 →
        (measure.mean_vec TimeTp.nanoseconds 2 [takes 5, takes 9, takes 9] w0).1[j]? = some x →
        LongDouble.lt x m = true)) :=
  ⟨by decide!, compare.slowest_is_first_maximum 2 [takes 5, takes 9, takes 9] w0
    (by simp) (by decide!)⟩

/-! ## Rounding of the `long double` quotient -/

/-- A power of two with an integer exponent as a quotient of two natural powers. -/
theorem LongDouble.two_zpow_eq (t : Int) :
    ((2 : ℚ) ^ t) = ((2 ^ t.toNat : Nat) : ℚ) / ((2 ^ (-t).toNat : Nat) : ℚ) := by
  rcases Int.le_total 0 t with h | h
  · obtain ⟨k, rfl⟩ := Int.eq_ofNat_of_zero_le h
    have : (-(k : Int)).toNat = 0 := by omega
    simp [this]
  · obtain ⟨k, hk⟩ := Int.eq_ofNat_of_zero_le (show 0 ≤ -t by omega)
    have ht : t = -(k : Int) := by omega
    subst ht
    have : (-(k : Int)).toNat = 0 := by omega
    simp [this]

theorem LongDouble.below_pow2_iff (a b : Nat) (hb : 0 < b) (e : Int) :
    LongDouble.below_pow2 a b e = true ↔ (a : ℚ) / (b : ℚ) < (2 : ℚ) ^ e := by
  have hbq : (0 : ℚ) < (b : ℚ) := by exact_mod_cast hb
  have hp : (0 : ℚ) < ((2 ^ (-e).toNat : Nat) : ℚ) := by positivity
  rw [LongDouble.two_zpow_eq, div_lt_div_iff₀ hbq hp]
  simp only [LongDouble.below_pow2, decide_eq_true_eq]
  constructor
  · intro h
    have : ((a * 2 ^ (-e).toNat : Nat) : ℚ) < ((b * 2 ^ e.toNat : Nat) : ℚ) := by exact_mod_cast h
    push_cast at this ⊢
    linarith
  · intro h
    have : ((a * 2 ^ (-e).toNat : Nat) : ℚ) < ((b * 2 ^ e.toNat : Nat) : ℚ) := by
      push_cast at h ⊢
      linarith
    exact_mod_cast this

/-- The exponent is a lower bound: `2 ^ e <= a / b`. -/
theorem LongDouble.exponent_le (a b : Nat) (ha : 0 < a) (hb : 0 < b) :
    (2 : ℚ) ^ LongDouble.exponent a b ≤ (a : ℚ) / (b : ℚ) := by
  have hbq : (0 : ℚ) < (b : ℚ) := by exact_mod_cast hb
  simp only [LongDouble.exponent]
  split
  · have h1 : ((2 ^ Nat.log2 a : Nat) : ℚ) ≤ (a : ℚ) := by
      exact_mod_cast Nat.log2_self_le (by omega)
    have h2 : (b : ℚ) ≤ ((2 ^ (Nat.log2 b + 1) : Nat) : ℚ) := by
      exact_mod_cast (Nat.le_of_lt (Nat.lt_log2_self))
    have he : (Nat.log2 a : Int) - (Nat.log2 b : Int) - 1 =
        (Nat.log2 a : Int) - ((Nat.log2 b + 1 : Nat) : Int) := by push_cast; ring
    rw [he, zpow_sub₀ (by norm_num : (2 : ℚ) ≠ 0), zpow_natCast, zpow_natCast]
    push_cast at h1 h2
    have hp : (0 : ℚ) < 2 ^ (Nat.log2 b + 1) := by positivity
    calc (2 : ℚ) ^ Nat.log2 a / 2 ^ (Nat.log2 b + 1)
        ≤ (a : ℚ) / 2 ^ (Nat.log2 b + 1) := by
          exact div_le_div_of_nonneg_right h1 (le_of_lt hp)
      _ ≤ (a : ℚ) / (b : ℚ) := by
          exact div_le_div_of_nonneg_left (by positivity) hbq h2
  · rename_i h
    have := (LongDouble.below_pow2_iff a b hb _).not.1 h
    exact not_lt.1 this

theorem LongDouble.round_half_even_spec (num den : Nat) (hd : 0 < den) :
    |(LongDouble.round_half_even num den : ℚ) - (num : ℚ) / (den : ℚ)| ≤ 1 / 2 := by
  have hdq : (0 : ℚ) < (den : ℚ) := by exact_mod_cast hd
  have hdm := Nat.div_add_mod num den
  have hq : (num : ℚ) = (den : ℚ) * ((num / den : Nat) : ℚ) + ((num % den : Nat) : ℚ) := by
    exact_mod_cast hdm.symm
  have hr : ((num % den : Nat) : ℚ) < (den : ℚ) := by exact_mod_cast Nat.mod_lt num hd
  have hr0 : (0 : ℚ) ≤ ((num % den : Nat) : ℚ) := by positivity
  have hdiv : (num : ℚ) / (den : ℚ) =
      ((num / den : Nat) : ℚ) + ((num % den : Nat) : ℚ) / (den : ℚ) := by
    rw [hq]; field_simp; ring
  rw [hdiv, abs_le]
  simp only [LongDouble.round_half_even]
  split
  · rename_i h
    have h' : 2 * ((num % den : Nat) : ℚ) < (den : ℚ) := by exact_mod_cast h
    have : ((num % den : Nat) : ℚ) / (den : ℚ) ≤ 1 / 2 := by
      rw [div_le_div_iff₀ hdq (by norm_num)]; linarith
    have h0 : (0 : ℚ) ≤ ((num % den : Nat) : ℚ) / (den : ℚ) := by positivity
    constructor <;> linarith
  · rename_i h
    have h' : (den : ℚ) ≤ 2 * ((num % den : Nat) : ℚ) := by exact_mod_cast Nat.le_of_not_lt h
    have h1 : 1 / 2 ≤ ((num % den : Nat) : ℚ) / (den : ℚ) := by
      rw [div_le_div_iff₀ (by norm_num) hdq]; linarith
    have h2 : ((num % den : Nat) : ℚ) / (den : ℚ) < 1 := by
      rw [div_lt_one hdq]; exact hr
    split
    · push_cast
      constructor <;> linarith
    · rename_i h3
      have h3' : 2 * ((num % den : Nat) : ℚ) ≤ (den : ℚ) := by exact_mod_cast Nat.le_of_not_lt h3
      have h4 : ((num % den : Nat) : ℚ) / (den : ℚ) ≤ 1 / 2 := by
        rw [div_le_div_iff₀ hdq (by norm_num)]; linarith
      split
      · constructor <;> linarith
      · push_cast
        constructor <;> linarith


/-- The rounded quotient is within half a unit in the last place of the quotient:
relative error at most `2 ^ (-64)`. -/
theorem LongDouble.round_div_error (s : Int) (n : Nat) (hn : 0 < n) :
    |LongDouble.round_div s n - (s : ℚ) / (n : ℚ)| * 2 ^ 64 ≤ |(s : ℚ) / (n : ℚ)| := by
  by_cases hs : s = 0
  · simp [LongDouble.round_div, hs]
  have ha : 0 < s.natAbs := Int.natAbs_pos.2 hs
  have hnq : (0 : ℚ) < (n : ℚ) := by exact_mod_cast hn
  have haq : (0 : ℚ) < (s.natAbs : ℚ) := by exact_mod_cast ha
  -- the positive case, on the absolute value
  have key : |((LongDouble.significand s.natAbs n (LongDouble.exponent s.natAbs n) *
        2 ^ (LongDouble.exponent s.natAbs n - 63).toNat : Nat) : ℚ) /
        ((2 ^ (63 - LongDouble.exponent s.natAbs n).toNat : Nat) : ℚ) -
        (s.natAbs : ℚ) / (n : ℚ)| * 2 ^ 64 ≤ (s.natAbs : ℚ) / (n : ℚ) := by
    generalize he : LongDouble.exponent s.natAbs n = e
    have hexp := LongDouble.exponent_le s.natAbs n ha hn
    rw [he] at hexp
    have hc := LongDouble.two_zpow_eq (e - 63)
    have hneg : (-(e - 63)).toNat = (63 - e).toNat := by congr 1; ring
    rw [hneg] at hc
    have hcpos : (0 : ℚ) < (2 : ℚ) ^ (e - 63) := by positivity
    have hp : (0 : ℚ) < ((2 ^ (63 - e).toNat : Nat) : ℚ) := by positivity
    have hq : (0 : ℚ) < ((2 ^ (e - 63).toNat : Nat) : ℚ) := by positivity
    have hD : 0 < n * 2 ^ (e - 63).toNat := Nat.mul_pos hn (by positivity)
    have hm := LongDouble.round_half_even_spec (s.natAbs * 2 ^ (63 - e).toNat)
      (n * 2 ^ (e - 63).toNat) hD
    simp only [LongDouble.significand]
    generalize LongDouble.round_half_even (s.natAbs * 2 ^ (63 - e).toNat)
      (n * 2 ^ (e - 63).toNat) = m at hm ⊢
    -- rewrite everything with c = 2 ^ (e - 63)
    have hval : ((m * 2 ^ (e - 63).toNat : Nat) : ℚ) / ((2 ^ (63 - e).toNat : Nat) : ℚ) =
        (m : ℚ) * (2 : ℚ) ^ (e - 63) := by
      rw [hc]; push_cast; ring
    have hscaled : ((s.natAbs * 2 ^ (63 - e).toNat : Nat) : ℚ) /
        ((n * 2 ^ (e - 63).toNat : Nat) : ℚ) = (s.natAbs : ℚ) / (n : ℚ) / (2 : ℚ) ^ (e - 63) := by
      rw [hc]
      push_cast
      push_cast at hp hq
      field_simp
    rw [hscaled] at hm
    rw [hval]
    have hdiff : (m : ℚ) * (2 : ℚ) ^ (e - 63) - (s.natAbs : ℚ) / (n : ℚ) =
        ((m : ℚ) - (s.natAbs : ℚ) / (n : ℚ) / (2 : ℚ) ^ (e - 63)) * (2 : ℚ) ^ (e - 63) := by
      field_simp
      ring
    rw [hdiff, abs_mul, abs_of_pos hcpos]
    have h64 : (2 : ℚ) ^ (e - 63) * 2 ^ 64 = 2 * (2 : ℚ) ^ e := by
      rw [zpow_sub₀ (by norm_num : (2 : ℚ) ≠ 0)]
      norm_num
      ring
    calc |(m : ℚ) - (s.natAbs : ℚ) / (n : ℚ) / (2 : ℚ) ^ (e - 63)| * (2 : ℚ) ^ (e - 63) * 2 ^ 64
        = |(m : ℚ) - (s.natAbs : ℚ) / (n : ℚ) / (2 : ℚ) ^ (e - 63)| *
            ((2 : ℚ) ^ (e - 63) * 2 ^ 64) := by ring
      _ = |(m : ℚ) - (s.natAbs : ℚ) / (n : ℚ) / (2 : ℚ) ^ (e - 63)| * (2 * (2 : ℚ) ^ e) := by
          rw [h64]
      _ ≤ 1 / 2 * (2 * (2 : ℚ) ^ e) := by
          exact mul_le_mul_of_nonneg_right hm (by positivity)
      _ = (2 : ℚ) ^ e := by ring
      _ ≤ (s.natAbs : ℚ) / (n : ℚ) := hexp
  have habs : |(s : ℚ)| = (s.natAbs : ℚ) := by
    rw [Nat.cast_natAbs]; push_cast; rfl
  rw [abs_div, abs_of_pos hnq, habs]
  simp only [LongDouble.round_div, hs, if_false]
  rcases lt_or_gt_of_ne hs with hneg | hpos
  · have hsq : (s : ℚ) = -(s.natAbs : ℚ) := by
      rw [← habs, abs_of_neg (by exact_mod_cast hneg)]; ring
    simp only [hneg, if_true]
    rw [hsq, neg_div, ← neg_sub', abs_neg]
    exact key
  · have hsq : (s : ℚ) = (s.natAbs : ℚ) := by
      rw [← habs, abs_of_pos (by exact_mod_cast hpos)]
    have hnn : ¬ s < 0 := by omega
    simp only [hnn, if_false]
    rw [hsq]
    exact key


theorem LongDouble.round_half_even_one (num : Nat) : LongDouble.round_half_even num 1 = num := by
  simp [LongDouble.round_half_even, Nat.mod_one]

/-- An integer of at most 64 bits divided by one is not changed by the rounding. -/
theorem LongDouble.round_div_one (c : Int) (hc : c.natAbs < 2 ^ 64) :
    LongDouble.round_div c 1 = (c : ℚ) := by
  by_cases hs : c = 0
  · simp [LongDouble.round_div, hs]
  have ha : c.natAbs ≠ 0 := Int.natAbs_ne_zero.2 hs
  have hlog : Nat.log2 c.natAbs < 64 := (Nat.log2_lt ha).2 hc
  have hle : 2 ^ Nat.log2 c.natAbs ≤ c.natAbs := Nat.log2_self_le ha
  have hlog1 : Nat.log2 1 = 0 := by decide!
  have hexp : LongDouble.exponent c.natAbs 1 = (Nat.log2 c.natAbs : Int) := by
    simp only [LongDouble.exponent, LongDouble.below_pow2, hlog1, Nat.cast_zero, sub_zero]
    have h1 : (-(Nat.log2 c.natAbs : Int)).toNat = 0 := by omega
    have h2 : ((Nat.log2 c.natAbs : Int)).toNat = Nat.log2 c.natAbs := by omega
    rw [h1, h2]
    have hnb : ¬ (c.natAbs * 2 ^ 0 < 1 * 2 ^ Nat.log2 c.natAbs) := by
      simp only [pow_zero, Nat.mul_one, Nat.one_mul]
      omega
    simp only [decide_eq_true_eq]
    rw [if_neg hnb]
  have h3 : ((Nat.log2 c.natAbs : Int) - 63).toNat = 0 := by omega
  have habs : ((c.natAbs : Nat) : ℚ) = |(c : ℚ)| := by
    rw [Nat.cast_natAbs]; push_cast; rfl
  have hv : ((LongDouble.significand c.natAbs 1 (LongDouble.exponent c.natAbs 1) *
        2 ^ (LongDouble.exponent c.natAbs 1 - 63).toNat : Nat) : ℚ) /
        ((2 ^ (63 - LongDouble.exponent c.natAbs 1).toNat : Nat) : ℚ) = |(c : ℚ)| := by
    rw [hexp]
    simp only [LongDouble.significand, h3, pow_zero, Nat.mul_one,
      LongDouble.round_half_even_one]
    have hp : ((2 ^ (63 - (Nat.log2 c.natAbs : Int)).toNat : Nat) : ℚ) ≠ 0 := by positivity
    rw [Nat.cast_mul, habs]
    field_simp
  simp only [LongDouble.round_div, hs, if_false]
  rw [hv]
  rcases lt_or_gt_of_ne hs with hneg | hpos
  · simp only [hneg, if_true]
    rw [abs_of_neg (by exact_mod_cast hneg)]
    ring
  · have hnn : ¬ c < 0 := by omega
    simp only [hnn, if_false]
    rw [abs_of_pos (by exact_mod_cast hpos)]

theorem LongDouble.round_half_even_mul (k den : Nat) (hd : 0 < den) :
    LongDouble.round_half_even (k * den) den = k := by
  have h1 : k * den % den = 0 := Nat.mul_mod_left k den
  have h2 : k * den / den = k := Nat.mul_div_cancel k hd
  simp [LongDouble.round_half_even, h1, h2, hd]

/-- A quotient that is itself a number with a significand of at most 64 bits is not
changed by the rounding. -/
theorem LongDouble.round_div_exact (s : Int) (n : Nat) (hn : 0 < n) (m : Nat) (t : Int)
    (hm : m < 2 ^ 64) (hq : |(s : ℚ) / (n : ℚ)| = (m : ℚ) * (2 : ℚ) ^ t) :
    LongDouble.round_div s n = (s : ℚ) / (n : ℚ) := by
  by_cases hs : s = 0
  · simp [LongDouble.round_div, hs]
  have ha : 0 < s.natAbs := Int.natAbs_pos.2 hs
  have hnq : (0 : ℚ) < (n : ℚ) := by exact_mod_cast hn
  have habs : |(s : ℚ)| = (s.natAbs : ℚ) := by
    rw [Nat.cast_natAbs]; push_cast; rfl
  rw [abs_div, abs_of_pos hnq, habs] at hq
  have key : ((LongDouble.significand s.natAbs n (LongDouble.exponent s.natAbs n) *
        2 ^ (LongDouble.exponent s.natAbs n - 63).toNat : Nat) : ℚ) /
        ((2 ^ (63 - LongDouble.exponent s.natAbs n).toNat : Nat) : ℚ) =
        (s.natAbs : ℚ) / (n : ℚ) := by
    generalize he : LongDouble.exponent s.natAbs n = e
    have hexp := LongDouble.exponent_le s.natAbs n ha hn
    rw [he, hq] at hexp
    have htpos : (0 : ℚ) < (2 : ℚ) ^ t := by positivity
    -- the exponent is at most t + 63
    have hle : e ≤ t + 63 := by
      by_contra hcon
      have h1 : t + 64 ≤ e := by omega
      have h2 : (2 : ℚ) ^ (t + 64) ≤ (2 : ℚ) ^ e :=
        zpow_le_zpow_right₀ (by norm_num) h1
      have h3 : (2 : ℚ) ^ (t + 64) = (2 : ℚ) ^ t * 2 ^ 64 := by
        rw [zpow_add₀ (by norm_num : (2 : ℚ) ≠ 0)]
        norm_num
      have h4 : (m : ℚ) < 2 ^ 64 := by exact_mod_cast hm
      have h5 : (m : ℚ) * (2 : ℚ) ^ t < (2 : ℚ) ^ t * 2 ^ 64 := by
        rw [mul_comm]
        exact mul_lt_mul_of_pos_left h4 htpos
      linarith
    obtain ⟨j, hj⟩ := Int.eq_ofNat_of_zero_le (show 0 ≤ t + 63 - e by omega)
    have hc := LongDouble.two_zpow_eq (e - 63)
    have hneg : (-(e - 63)).toNat = (63 - e).toNat := by congr 1; ring
    rw [hneg] at hc
    have hp : (0 : ℚ) < ((2 ^ (63 - e).toNat : Nat) : ℚ) := by positivity
    have hq' : (0 : ℚ) < ((2 ^ (e - 63).toNat : Nat) : ℚ) := by positivity
    have ht : (2 : ℚ) ^ t = ((2 ^ j : Nat) : ℚ) * (2 : ℚ) ^ (e - 63) := by
      have : t = (j : Int) + (e - 63) := by omega
      rw [this, zpow_add₀ (by norm_num : (2 : ℚ) ≠ 0), zpow_natCast]
      push_cast
      ring
    have hD : 0 < n * 2 ^ (e - 63).toNat := Nat.mul_pos hn (by positivity)
    have hnat : s.natAbs * 2 ^ (63 - e).toNat = (m * 2 ^ j) * (n * 2 ^ (e - 63).toNat) := by
      have hcast : ((s.natAbs * 2 ^ (63 - e).toNat : Nat) : ℚ) =
          (((m * 2 ^ j) * (n * 2 ^ (e - 63).toNat) : Nat) : ℚ) := by
        have h1 : (s.natAbs : ℚ) = (m : ℚ) * (2 : ℚ) ^ t * (n : ℚ) := by
          rw [← hq]; field_simp
        rw [Nat.cast_mul, h1, ht, hc]
        push_cast
        push_cast at hp
        field_simp
        ring
      exact_mod_cast hcast
    simp only [LongDouble.significand]
    rw [hnat, LongDouble.round_half_even_mul _ _ hD, hq, ht, hc]
    push_cast
    ring
  simp only [LongDouble.round_div, hs, if_false]
  rw [key]
  rcases lt_or_gt_of_ne hs with hneg | hpos
  · have hsq : (s : ℚ) = -(s.natAbs : ℚ) := by
      rw [← habs, abs_of_neg (by exact_mod_cast hneg)]; ring
    simp only [hneg, if_true]
    rw [hsq]
    ring
  · have hsq : (s : ℚ) = (s.natAbs : ℚ) := by
      rw [← habs, abs_of_pos (by exact_mod_cast hpos)]
    have hnn : ¬ s < 0 := by omega
    simp only [hnn, if_false]
    rw [hsq]

/-! ## Claims on `measure::mean` -/

/-- C4 (as stated, refuted): three measurements with counts 1, 0 and 0 have the sum 1,
inside the range of the count type, and `measure::mean` returns
`12297829382473034411 / 2 ^ 65`, the `long double` nearest to one third, not the real
number `1 / 3`. -/
theorem measure.mean_one_third_is_rounded :
    measure.samples TimeTp.nanoseconds scripted 3 ⟨0, [1, 0, 0]⟩ = [1, 0, 0] ∧
    (measure.mean TimeTp.nanoseconds 3 scripted ⟨0, [1, 0, 0]⟩).1 =
      LongDouble.finite (12297829382473034411 / 36893488147419103232) ∧
    (measure.mean TimeTp.nanoseconds 3 scripted ⟨0, [1, 0, 0]⟩).1 ≠
      LongDouble.finite
        (((measure.samples TimeTp.nanoseconds scripted 3 ⟨0, [1, 0, 0]⟩).sum : ℚ) /
          ((3 : Nat) : ℚ)) := by
  decide!

/-- C4 (amended): for `num_iters >= 1`, when the sum of the counts of the `num_iters`
successive single-call measurements lies in the range of the count type,
`measure::mean` returns the `long double` quotient of that sum by `num_iters`: the
fraction `sum / num_iters` rounded to the nearest number with a 64-bit significand. It
is not truncated to an integer: it differs from the fraction by at most `2 ^ (-64)` of
the fraction, and it is the fraction itself whenever the fraction is a number
`m * 2 ^ t` with a significand `m` of at most 64 bits. And `mean(1, f)` is exactly the
count of its single `once(f)` measurement. -/
theorem measure.mean_is_rounded_average {σ : Type} (tp : TimeTp) (num_iters : Nat)
    (func : Callable σ) (w : World σ) (hn : 1 ≤ num_iters)
    (hrange : -2 ^ 63 ≤ (measure.samples tp func num_iters w).sum ∧
      (measure.samples tp func num_iters w).sum < 2 ^ 63) :
    (measure.mean tp num_iters func w).1 =
      LongDouble.finite
        (LongDouble.round_div (measure.samples tp func num_iters w).sum num_iters) ∧
    |LongDouble.round_div (measure.samples tp func num_iters w).sum num_iters -
        ((measure.samples tp func num_iters w).sum : ℚ) / (num_iters : ℚ)| * 2 ^ 64 ≤
      |((measure.samples tp func num_iters w).sum : ℚ) / (num_iters : ℚ)| ∧
    (∀ (m : Nat) (t : Int), m < 2 ^ 64 →
      |((measure.samples tp func num_iters w).sum : ℚ) / (num_iters : ℚ)| =
        (m : ℚ) * (2 : ℚ) ^ t →
      (measure.mean tp num_iters func w).1 =
        LongDouble.finite
          (((measure.samples tp func num_iters w).sum : ℚ) / (num_iters : ℚ))) ∧
    (measure.mean tp 1 func w).1 = LongDouble.finite ((measure.once tp func w).1 : ℚ) := by
  have h0 : num_iters ≠ 0 := by omega
  have hmean : (measure.mean tp num_iters func w).1 =
      LongDouble.finite
        (LongDouble.round_div (measure.samples tp func num_iters w).sum num_iters) := by
    rw [measure.mean_eq_ofDiv_samples tp num_iters func w hn, wrap64_of_range _ hrange]
    simp [LongDouble.ofDiv, h0]
  refine ⟨hmean, LongDouble.round_div_error _ num_iters (by omega), ?_, ?_⟩
  · intro m t hm hq
    rw [hmean, LongDouble.round_div_exact _ num_iters (by omega) m t hm hq]
  · have hr := measure.once_range tp func w
    have hone : LongDouble.round_div (measure.once tp func w).1 1 =
        ((measure.once tp func w).1 : ℚ) :=
      LongDouble.round_div_one _ (by omega)
    simp [measure.mean, LongDouble.ofDiv, hone]

theorem measure.mean_is_rounded_average_witness :
    measure.samples TimeTp.nanoseconds scripted 2 ⟨0, [1, 2]⟩ = [1, 2] ∧
    (measure.mean TimeTp.nanoseconds 2 scripted ⟨0, [1, 2]⟩).1 = LongDouble.finite (3 / 2) ∧
    ((measure.mean TimeTp.nanoseconds 2 scripted ⟨0, [1, 2]⟩).1 =
      LongDouble.finite
        (LongDouble.round_div (measure.samples TimeTp.nanoseconds scripted 2 ⟨0, [1, 2]⟩).sum 2) ∧
    |LongDouble.round_div (measure.samples TimeTp.nanoseconds scripted 2 ⟨0, [1, 2]⟩).sum 2 -
        ((measure.samples TimeTp.nanoseconds scripted 2 ⟨0, [1, 2]⟩).sum : ℚ) / ((2 : Nat) : ℚ)| *
        2 ^ 64 ≤
      |((measure.samples TimeTp.nanoseconds scripted 2 ⟨0, [1, 2]⟩).sum : ℚ) / ((2 : Nat) : ℚ)| ∧
    (∀ (m : Nat) (t : Int), m < 2 ^ 64 →
      |((measure.samples TimeTp.nanoseconds scripted 2 ⟨0, [1, 2]⟩).sum : ℚ) / ((2 : Nat) : ℚ)| =
        (m : ℚ) * (2 : ℚ) ^ t →
      (measure.mean TimeTp.nanoseconds 2 scripted ⟨0, [1, 2]⟩).1 =
        LongDouble.finite
          (((measure.samples TimeTp.nanoseconds scripted 2 ⟨0, [1, 2]⟩).sum : ℚ) /
            ((2 : Nat) : ℚ))) ∧
    (measure.mean TimeTp.nanoseconds 1 scripted ⟨0, [1, 2]⟩).1 =
      LongDouble.finite ((measure.once TimeTp.nanoseconds scripted ⟨0, [1, 2]⟩).1 : ℚ)) :=
  ⟨by decide, by decide!,
    measure.mean_is_rounded_average TimeTp.nanoseconds 2 scripted ⟨0, [1, 2]⟩ (by decide)
      (by decide)⟩

/-! ## Claims on `report::comparison` -/

/-- C5: for equally many names and callables whose means are pairwise distinct (and are
numbers), `report::comparison` appends to the sink exactly one line per callable: there
is a permutation of the positions `0..N-1`, in strictly ascending order of mean, such
that the `k`-th appended line is `names[i], num_iters, d[i], unit_label` and a line break
for the `k`-th position `i` of that permutation. -/
theorem report.comparison_distinct_lines {σ : Type} (fmt : LongDouble → String)
    (tp : TimeTp) (os : String) (names : List String) (num_iters : Nat)
    (funcs : List (Callable σ)) (w : World σ)
    (hlen : names.length = funcs.length)
    (hnan : LongDouble.nan ∉ (measure.mean_vec tp num_iters funcs w).1)
    (hd : (measure.mean_vec tp num_iters funcs w).1.Nodup) :
    ∃ ranking : List Nat,
      ranking.length = funcs.length ∧
      ranking.Perm (List.range funcs.length) ∧
      ranking.Pairwise (fun i j =>
        LongDouble.lt ((measure.mean_vec tp num_iters funcs w).1.getD i (LongDouble.finite 0))
          ((measure.mean_vec tp num_iters funcs w).1.getD j (LongDouble.finite 0)) = true) ∧
      report.comparison fmt tp os names num_iters funcs w =
        some (os ++ String.join (ranking.map (fun i =>
            names.getD i "" ++ ", " ++ toString num_iters ++ ", " ++
              fmt ((measure.mean_vec tp num_iters funcs w).1.getD i (LongDouble.finite 0)) ++
              ", " ++ duration_type_name tp ++ "\n")),
          (measure.mean_vec tp num_iters funcs w).2) := by
  have hl := measure.mean_vec_length tp num_iters funcs w
  simp only [report.comparison]
  generalize (measure.mean_vec tp num_iters funcs w).2 = w1
  generalize (measure.mean_vec tp num_iters funcs w).1 = d at *
  obtain ⟨hperm, hpw⟩ := compare.sorted_map_ranking d hnan hd
  have hperm0 := compare.sorted_map_perm d hnan hd d.length (Nat.le_refl _)
  refine ⟨(compare.sorted_map d.length d).map Prod.snd, ?_, ?_, hpw, ?_⟩
  · rw [← hl]; simpa using hperm.length_eq
  · rw [← hl]; exact hperm
  · rw [report.sorted_map_eq names d (by omega)]
    simp only [List.foldl_map, List.map_map]
    rw [← List.foldl_map (fun (p : LongDouble × Nat) =>
      report.line fmt tp (names.getD p.2 "") num_iters p.1) (fun r s => r ++ s),
      String.foldl_append_eq]
    congr 3
    apply congrArg String.join
    apply List.map_congr_left
    intro p hp
    obtain ⟨i, _, hpi⟩ := List.mem_map.1 ((hperm0.mem_iff).1 hp)
    rw [← hpi]
    simp [report.line]

theorem report.comparison_distinct_lines_witness :
    report.comparison fmt_sample TimeTp.nanoseconds "" ["g1", "g2", "g3"] 1
      [takes 5, takes 3, takes 9] w0 =
      some ("g2, 1, 3, ns\ng1, 1, 5, ns\ng3, 1, 9, ns\n", ⟨17, ()⟩) ∧
    ∃ ranking : List Nat,
      ranking.length = 3 ∧
      ranking.Perm (List.range 3) ∧
      ranking.Pairwise (fun i j =>
        LongDouble.lt ((measure.mean_vec TimeTp.nanoseconds 1 [takes 5, takes 3, takes 9] w0).1.getD
            i (LongDouble.finite 0))
          ((measure.mean_vec TimeTp.nanoseconds 1 [takes 5, takes 3, takes 9] w0).1.getD
            j (LongDouble.finite 0)) = true) ∧
      report.comparison fmt_sample TimeTp.nanoseconds "" ["g1", "g2", "g3"] 1
          [takes 5, takes 3, takes 9] w0 =
        some ("" ++ String.join (ranking.map (fun i =>
            ["g1", "g2", "g3"].getD i "" ++ ", " ++ toString 1 ++ ", " ++
              fmt_sample ((measure.mean_vec TimeTp.nanoseconds 1
                [takes 5, takes 3, takes 9] w0).1.getD i (LongDouble.finite 0)) ++
              ", " ++ duration_type_name TimeTp.nanoseconds ++ "\n")),
          (measure.mean_vec TimeTp.nanoseconds 1 [takes 5, takes 3, takes 9] w0).2) :=
  ⟨by decide!, report.comparison_distinct_lines fmt_sample TimeTp.nanoseconds ""
    ["g1", "g2", "g3"] 1 [takes 5, takes 3, takes 9] w0 (by decide) (by decide!) (by decide!)⟩

/-- C8 (as stated, refuted): with three names and one callable `report::comparison`
does not fail; it pairs the callable with the first name and writes that line. -/
theorem report.comparison_surplus_names_not_rejected :
    report.comparison fmt_sample TimeTp.nanoseconds "" ["a", "b", "c"] 1 [takes 5] w0 =
      some ("a, 1, 5, ns\n", ⟨5, ()⟩) := by
  decide!

/-- C8 (amended): `report::comparison` makes no length check; with at least as many
names as callables the call succeeds and writes exactly what it writes for the first
`N` names, the surplus names being ignored. -/
theorem report.comparison_ignores_surplus_names {σ : Type} (fmt : LongDouble → String)
    (tp : TimeTp) (os : String) (names : List String) (num_iters : Nat)
    (funcs : List (Callable σ)) (w : World σ) (hlen : funcs.length ≤ names.length) :
    (report.comparison fmt tp os names num_iters funcs w).isSome = true ∧
    report.comparison fmt tp os names num_iters funcs w =
      report.comparison fmt tp os (names.take funcs.length) num_iters funcs w := by
  have hl := measure.mean_vec_length tp num_iters funcs w
  constructor
  · simp only [report.comparison]
    rw [report.sorted_map_eq names _ (by omega)]
    rfl
  · simp only [report.comparison]
    rw [← hl, report.sorted_map_take]

theorem report.comparison_ignores_surplus_names_witness :
    [takes 5, takes 3].length ≤ ["a", "b", "c"].length ∧
    ((report.comparison fmt_sample TimeTp.nanoseconds "" ["a", "b", "c"] 1
      [takes 5, takes 3] w0).isSome = true ∧
    report.comparison fmt_sample TimeTp.nanoseconds "" ["a", "b", "c"] 1 [takes 5, takes 3] w0 =
      report.comparison fmt_sample TimeTp.nanoseconds ""
        (["a", "b", "c"].take [takes 5, takes 3].length) 1 [takes 5, takes 3] w0) :=
  ⟨by decide, report.comparison_ignores_surplus_names fmt_sample TimeTp.nanoseconds ""
    ["a", "b", "c"] 1 [takes 5, takes 3] w0 (by decide)⟩

/-! ## Ties, zero trials, empty input -/

/-- C6 (the code at the failing input): two callables that both take 5 ns have equal
means, and `compare::sort` returns the single index 1, not a permutation of `0, 1`. -/
theorem compare.sort_tie_loses_index :
    (measure.mean_vec TimeTp.nanoseconds 1 [takes 5, takes 5] w0).1 =
      [LongDouble.finite 5, LongDouble.finite 5] ∧
    (compare.sort 1 [takes 5, takes 5] w0).1 = [1] ∧
    (compare.sort 1 [takes 5, takes 5] w0).1.length ≠ [takes 5, takes 5].length := by
  decide!

/-- C7 (as stated, refuted): `measure::mean` with `num_iters = 0` on a callable that
takes 5 ns is not rejected; it runs the callable and returns the value of `5 / 0`,
positive infinity. -/
theorem measure.mean_zero_iters_not_rejected :
    measure.mean TimeTp.nanoseconds 0 (takes 5) w0 = (LongDouble.posInf, ⟨5, ()⟩) := by
  decide!

/-- C7 (amended): `measure::mean` with `num_iters = 0` always returns a value, the
count `c` of one `once` measurement divided by zero: positive infinity for `c > 0`,
negative infinity for `c < 0`, NaN for `c = 0`; it is never a finite number. -/
theorem measure.mean_zero_iters_divides_by_zero {σ : Type} (tp : TimeTp)
    (func : Callable σ) (w : World σ) :
    (measure.mean tp 0 func w).1 =
      (if 0 < (measure.once tp func w).1 then LongDouble.posInf
        else if (measure.once tp func w).1 < 0 then LongDouble.negInf
        else LongDouble.nan) ∧
    ∀ q : ℚ, (measure.mean tp 0 func w).1 ≠ LongDouble.finite q := by
  have h : (measure.mean tp 0 func w).1 =
      (if 0 < (measure.once tp func w).1 then LongDouble.posInf
        else if (measure.once tp func w).1 < 0 then LongDouble.negInf
        else LongDouble.nan) := by
    simp [measure.mean, LongDouble.ofDiv]
  refine ⟨h, ?_⟩
  intro q
  rw [h]
  split
  · simp
  · split <;> simp

/-- C10: for every `num_iters`, zero included, over an empty sequence of callables
`measure::mean` returns the empty sequence, `compare::sort` returns the empty sequence
and `report::comparison` with no names appends nothing to the sink; each call succeeds
and leaves the world as it was, so no callable is run. -/
theorem empty_sequence_gives_empty_result {σ : Type} (fmt : LongDouble → String)
    (tp : TimeTp) (os : String) (num_iters : Nat) (w : World σ) :
    measure.mean_vec tp num_iters ([] : List (Callable σ)) w = ([], w) ∧
    compare.sort num_iters ([] : List (Callable σ)) w = ([], w) ∧
    report.comparison fmt tp os [] num_iters ([] : List (Callable σ)) w = some (os, w) := by
  refine ⟨rfl, rfl, rfl⟩

/-! ## Agreement of the three operations of `compare` -/

/-- C9: when `fastest`, `slowest` and `sort` are run on at least two callables and
measure the same vector `d` of pairwise distinct means (numbers, none NaN), `fastest`
and `slowest` return different indices, the first element of the output of `sort` is the
index returned by `fastest` and its last element is the index returned by `slowest`. -/
theorem compare.fastest_slowest_sort_agree {σ : Type} (num_iters : Nat)
    (funcs : List (Callable σ)) (wf ws wo : World σ) (d : List LongDouble)
    (hN : 2 ≤ funcs.length)
    (hf : (measure.mean_vec TimeTp.nanoseconds num_iters funcs wf).1 = d)
    (hs : (measure.mean_vec TimeTp.nanoseconds num_iters funcs ws).1 = d)
    (ho : (measure.mean_vec TimeTp.nanoseconds num_iters funcs wo).1 = d)
    (hnan : LongDouble.nan ∉ d) (hd : d.Nodup) :
    (compare.fastest num_iters funcs wf).1 ≠ (compare.slowest num_iters funcs ws).1 ∧
    (compare.sort num_iters funcs wo).1.head? = some (compare.fastest num_iters funcs wf).1 ∧
    (compare.sort num_iters funcs wo).1.getLast? =
      some (compare.slowest num_iters funcs ws).1 := by
  have hl := measure.mean_vec_length TimeTp.nanoseconds num_iters funcs wo
  rw [ho] at hl
  have hne : d ≠ [] := by
    intro h
    rw [h] at hl
    simp at hl
    omega
  simp only [compare.fastest, compare.slowest, compare.sort, hf, hs, ho]
  rw [← hl]
  exact ⟨min_element_ne_max_element d (by omega) hnan hd, compare.ranking_head d hne hnan hd,
    compare.ranking_last d hne hnan hd⟩

theorem compare.fastest_slowest_sort_agree_witness :
    (compare.fastest 2 [scripted, scripted, scripted] ⟨0, [5, 7, 1, 3, 9, 9]⟩).1 = 1 ∧
    (compare.slowest 2 [scripted, scripted, scripted] ⟨40, [7, 5, 3, 1, 8, 10]⟩).1 = 2 ∧
    (compare.sort 2 [scripted, scripted, scripted] ⟨90, [6, 6, 2, 2, 9, 9]⟩).1 = [1, 0, 2] ∧
    ((compare.fastest 2 [scripted, scripted, scripted] ⟨0, [5, 7, 1, 3, 9, 9]⟩).1 ≠
      (compare.slowest 2 [scripted, scripted, scripted] ⟨40, [7, 5, 3, 1, 8, 10]⟩).1 ∧
    (compare.sort 2 [scripted, scripted, scripted] ⟨90, [6, 6, 2, 2, 9, 9]⟩).1.head? =
      some (compare.fastest 2 [scripted, scripted, scripted] ⟨0, [5, 7, 1, 3, 9, 9]⟩).1 ∧
    (compare.sort 2 [scripted, scripted, scripted] ⟨90, [6, 6, 2, 2, 9, 9]⟩).1.getLast? =
      some (compare.slowest 2 [scripted, scripted, scripted] ⟨40, [7, 5, 3, 1, 8, 10]⟩).1) :=
  ⟨by decide!, by decide!, by decide!,
    compare.fastest_slowest_sort_agree 2 [scripted, scripted, scripted]
      ⟨0, [5, 7, 1, 3, 9, 9]⟩ ⟨40, [7, 5, 3, 1, 8, 10]⟩ ⟨90, [6, 6, 2, 2, 9, 9]⟩
      [LongDouble.finite 6, LongDouble.finite 2, LongDouble.finite 9]
      (by decide) (by decide!) (by decide!) (by decide!) (by decide!) (by decide!)⟩

/-! ## Claims on `report::time` and `duration_type_name` -/

/-- C11: `report::time` leaves the earlier content of the sink in place and appends to it
exactly one line: the name, a comma and a space, `num_iters` in decimal, a comma and a
space, the text of `measure::mean` at the resolution of the reporter, a comma and a
space, the label `duration_type_name` of that resolution, and a line break; the callable
is run as `measure::mean` runs it. -/
theorem report.time_appends_one_line {σ : Type} (fmt : LongDouble → String) (tp : TimeTp)
    (os : String) (name : String) (num_iters : Nat) (func : Callable σ) (w : World σ) :
    (report.time fmt tp os name num_iters func w).1 =
      os ++ (name ++ ", " ++ Nat.repr num_iters ++ ", " ++
        fmt (measure.mean tp num_iters func w).1 ++ ", " ++ duration_type_name tp ++ "\n") ∧
    (report.time fmt tp os name num_iters func w).2 = (measure.mean tp num_iters func w).2 := by
  constructor
  · simp only [report.time, report.line, String.append_assoc]
    rfl
  · rfl

/-- C12: the label is `ns` for nanoseconds, `us` for microseconds, `ms` for milliseconds,
`s` for seconds and the sentinel `/` for every other resolution type; the four labels
are pairwise distinct and none of them is the sentinel. -/
theorem duration_type_name_labels :
    duration_type_name TimeTp.nanoseconds = "ns" ∧
    duration_type_name TimeTp.microseconds = "us" ∧
    duration_type_name TimeTp.milliseconds = "ms" ∧
    duration_type_name TimeTp.seconds = "s" ∧
    (∀ k, duration_type_name (TimeTp.other k) = "/") ∧
    [duration_type_name TimeTp.nanoseconds, duration_type_name TimeTp.microseconds,
      duration_type_name TimeTp.milliseconds, duration_type_name TimeTp.seconds].Nodup ∧
    "/" ∉ [duration_type_name TimeTp.nanoseconds, duration_type_name TimeTp.microseconds,
      duration_type_name TimeTp.milliseconds, duration_type_name TimeTp.seconds] := by
  refine ⟨rfl, rfl, rfl, rfl, fun _ => rfl, by decide, by decide⟩

/-! ## Claims on `measure::once` -/

/-- For a non-negative interval that fits the count type, `once` returns the floor of
the interval divided by the unit. -/
theorem measure.once_eq_ediv {σ : Type} (tp : TimeTp) (func : Callable σ) (w : World σ)
    (h0 : w.clock ≤ (func w).clock) (hr : (func w).clock - w.clock < 2 ^ 63) :
    (measure.once tp func w).1 = ((func w).clock - w.clock) / (tp.ticks : Int) := by
  have he : 0 ≤ (func w).clock - w.clock := by omega
  simp only [measure.once]
  rw [wrap64_of_range _ ⟨by omega, hr⟩, Int.tdiv_eq_ediv he (Int.ofNat_nonneg _)]

/-- C13: for one execution whose end reading is not earlier than its start reading (the
interval `e` fitting the count type), the count returned by `once` at each of the four
resolutions is the quotient of `e` by the unit with the remainder discarded:
`count * unit <= e < (count + 1) * unit`; it is non-negative; and the counts satisfy
`count_ns >= count_us >= count_ms >= count_s`. -/
theorem measure.once_truncates {σ : Type} (func : Callable σ) (w : World σ)
    (h0 : w.clock ≤ (func w).clock) (hr : (func w).clock - w.clock < 2 ^ 63) :
    (∀ tp ∈ [TimeTp.nanoseconds, TimeTp.microseconds, TimeTp.milliseconds, TimeTp.seconds],
      0 ≤ (measure.once tp func w).1 ∧
      (measure.once tp func w).1 * (tp.ticks : Int) ≤ (func w).clock - w.clock ∧
      (func w).clock - w.clock < ((measure.once tp func w).1 + 1) * (tp.ticks : Int)) ∧
    (measure.once TimeTp.nanoseconds func w).1 = (func w).clock - w.clock ∧
    (measure.once TimeTp.microseconds func w).1 ≤ (measure.once TimeTp.nanoseconds func w).1 ∧
    (measure.once TimeTp.milliseconds func w).1 ≤ (measure.once TimeTp.microseconds func w).1 ∧
    (measure.once TimeTp.seconds func w).1 ≤ (measure.once TimeTp.milliseconds func w).1 := by
  have he : 0 ≤ (func w).clock - w.clock := by omega
  have hns := measure.once_eq_ediv TimeTp.nanoseconds func w h0 hr
  have hus := measure.once_eq_ediv TimeTp.microseconds func w h0 hr
  have hms := measure.once_eq_ediv TimeTp.milliseconds func w h0 hr
  have hs := measure.once_eq_ediv TimeTp.seconds func w h0 hr
  simp only [TimeTp.ticks, Nat.cast_one, Nat.cast_ofNat] at hns hus hms hs
  generalize (func w).clock - w.clock = e at *
  refine ⟨?_, ?_, ?_, ?_, ?_⟩
  · intro tp htp
    simp only [List.mem_cons, List.mem_singleton, List.not_mem_nil, or_false] at htp
    rcases htp with h | h | h | h <;> subst h <;>
      simp only [TimeTp.ticks, Nat.cast_one, Nat.cast_ofNat]
    · rw [hns]; omega
    · rw [hus]; omega
    · rw [hms]; omega
    · rw [hs]; omega
  · rw [hns]; omega
  · rw [hns, hus]; omega
  · rw [hms, hus]; omega
  · rw [hs, hms]; omega

theorem measure.once_truncates_witness :
    (measure.once TimeTp.nanoseconds (takes 2999999) w0).1 = 2999999 ∧
    (measure.once TimeTp.microseconds (takes 2999999) w0).1 = 2999 ∧
    (measure.once TimeTp.milliseconds (takes 2999999) w0).1 = 2 ∧
    (measure.once TimeTp.seconds (takes 2999999) w0).1 = 0 ∧
    ((∀ tp ∈ [TimeTp.nanoseconds, TimeTp.microseconds, TimeTp.milliseconds, TimeTp.seconds],
      0 ≤ (measure.once tp (takes 2999999) w0).1 ∧
      (measure.once tp (takes 2999999) w0).1 * (tp.ticks : Int) ≤
        (takes 2999999 w0).clock - w0.clock ∧
      (takes 2999999 w0).clock - w0.clock <
        ((measure.once tp (takes 2999999) w0).1 + 1) * (tp.ticks : Int)) ∧
    (measure.once TimeTp.nanoseconds (takes 2999999) w0).1 =
      (takes 2999999 w0).clock - w0.clock ∧
    (measure.once TimeTp.microseconds (takes 2999999) w0).1 ≤
      (measure.once TimeTp.nanoseconds (takes 2999999) w0).1 ∧
    (measure.once TimeTp.milliseconds (takes 2999999) w0).1 ≤
      (measure.once TimeTp.microseconds (takes 2999999) w0).1 ∧
    (measure.once TimeTp.seconds (takes 2999999) w0).1 ≤
      (measure.once TimeTp.milliseconds (takes 2999999) w0).1) :=
  ⟨by decide, by decide, by decide, by decide,
    measure.once_truncates (takes 2999999) w0 (by decide) (by decide)⟩

/-! ## Executions performed by `measure::mean` -/

theorem measure.mean_loop_world {σ : Type} (tp : TimeTp) (func : Callable σ) (k : Nat) :
    ∀ (s : Nat) (a : Int) (w : World σ),
      ((List.range' s k).foldl
        (fun (st : Int × World σ) (_ : Nat) =>
          (wrap64 (st.1 + (measure.once tp func st.2).1), (measure.once tp func st.2).2))
        (a, w)).2 = func^[k] w := by
  induction k with
  | zero => intro s a w; rfl
  | succ k ih =>
    intro s a w
    simp only [List.range'_succ, List.foldl_cons, Function.iterate_succ_apply]
    rw [ih]
    rfl

/-- The world after `mean` is the world after `max(1, num_iters)` runs of the callable. -/
theorem measure.mean_world {σ : Type} (tp : TimeTp) (num_iters : Nat) (func : Callable σ)
    (w : World σ) : (measure.mean tp num_iters func w).2 = func^[max 1 num_iters] w := by
  simp only [measure.mean]
  rw [measure.mean_loop_world tp func (num_iters - 1) 1]
  have h : max 1 num_iters = (num_iters - 1) + 1 := by omega
  rw [h, Function.iterate_succ_apply]
  rfl

theorem run_all_replicate {σ : Type} (func : Callable σ) (n : Nat) :
    ∀ w : World σ, run_all (List.replicate n func) w = func^[n] w := by
  induction n with
  | zero => intro w; rfl
  | succ n ih =>
    intro w
    simp only [List.replicate_succ, run_all, List.foldl_cons, Function.iterate_succ_apply]
    exact ih (func w)

theorem run_all_append {σ : Type} (a b : List (Callable σ)) (w : World σ) :
    run_all (a ++ b) w = run_all b (run_all a w) := by
  simp [run_all, List.foldl_append]

theorem measure.mean_vec_world {σ : Type} (tp : TimeTp) (num_iters : Nat)
    (hn : 1 ≤ num_iters) (funcs : List (Callable σ)) :
    ∀ w : World σ, (measure.mean_vec tp num_iters funcs w).2 =
      run_all (execution_order num_iters funcs) w := by
  induction funcs with
  | nil => intro w; rfl
  | cons f fs ih =>
    intro w
    have h : max 1 num_iters = num_iters := by omega
    simp only [measure.mean_vec, execution_order, List.map_cons, List.flatten_cons]
    rw [run_all_append, run_all_replicate, ih, measure.mean_world, h]
    rfl

theorem execution_order_length {σ : Type} (num_iters : Nat) (funcs : List (Callable σ)) :
    (execution_order num_iters funcs).length = funcs.length * num_iters := by
  induction funcs with
  | nil => simp [execution_order]
  | cons f fs ih =>
    simp only [execution_order, List.map_cons, List.flatten_cons, List.length_append,
      List.length_replicate, List.length_cons] at ih ⊢
    rw [ih, Nat.succ_mul]
    omega

/-- C17: for `num_iters >= 1` the scalar `measure::mean` leaves the world that exactly
`num_iters` runs of its callable leave, and `measure::mean` over `f_0 .. f_{N-1}` leaves
the world of the executions `f_0` (`num_iters` times), then `f_1` (`num_iters` times),
up to `f_{N-1}`: `N * num_iters` executions, all trials of one callable before the
next callable starts. -/
theorem measure.mean_execution_count_and_order {σ : Type} (tp : TimeTp) (num_iters : Nat)
    (funcs : List (Callable σ)) (func : Callable σ) (w : World σ) (hn : 1 ≤ num_iters) :
    (measure.mean tp num_iters func w).2 = run_all (List.replicate num_iters func) w ∧
    (measure.mean tp num_iters func w).2 = func^[num_iters] w ∧
    (measure.mean_vec tp num_iters funcs w).2 =
      run_all (execution_order num_iters funcs) w ∧
    (execution_order num_iters funcs).length = funcs.length * num_iters := by
  have h : max 1 num_iters = num_iters := by omega
  refine ⟨?_, ?_, measure.mean_vec_world tp num_iters hn funcs w,
    execution_order_length num_iters funcs⟩
  · rw [run_all_replicate, measure.mean_world, h]
  · rw [measure.mean_world, h]

theorem measure.mean_execution_count_and_order_witness :
    (measure.mean TimeTp.nanoseconds 3 (logged 7 5) ⟨0, []⟩).2.store = [7, 7, 7] ∧
    (measure.mean_vec TimeTp.nanoseconds 2 [logged 0 5, logged 1 3, logged 2 4] ⟨0, []⟩).2.store =
      [0, 0, 1, 1, 2, 2] ∧
    ((measure.mean TimeTp.nanoseconds 2 (logged 7 5) ⟨0, []⟩).2 =
      run_all (List.replicate 2 (logged 7 5)) ⟨0, []⟩ ∧
    (measure.mean TimeTp.nanoseconds 2 (logged 7 5) ⟨0, []⟩).2 = (logged 7 5)^[2] ⟨0, []⟩ ∧
    (measure.mean_vec TimeTp.nanoseconds 2 [logged 0 5, logged 1 3, logged 2 4] ⟨0, []⟩).2 =
      run_all (execution_order 2 [logged 0 5, logged 1 3, logged 2 4]) ⟨0, []⟩ ∧
    (execution_order 2 [logged 0 5, logged 1 3, logged 2 4]).length =
      [logged 0 5, logged 1 3, logged 2 4].length * 2) :=
  ⟨by decide, by decide,
    measure.mean_execution_count_and_order TimeTp.nanoseconds 2
      [logged 0 5, logged 1 3, logged 2 4] (logged 7 5) ⟨0, []⟩ (by decide)⟩

/-- C20: `measure::mean` with `num_iters = 0` runs its callable exactly once and returns
the count of that single measurement divided by zero; for every `num_iters` the world
it leaves is the world after `max(1, num_iters)` runs of the callable. -/
theorem measure.mean_zero_iters_runs_once {σ : Type} (tp : TimeTp) (num_iters : Nat)
    (func : Callable σ) (w : World σ) :
    measure.mean tp 0 func w = (LongDouble.ofDiv (measure.once tp func w).1 0, func w) ∧
    (measure.mean tp num_iters func w).2 = func^[max 1 num_iters] w ∧
    (measure.mean tp num_iters func w).2 =
      run_all (List.replicate (max 1 num_iters) func) w := by
  refine ⟨rfl, measure.mean_world tp num_iters func w, ?_⟩
  rw [run_all_replicate, measure.mean_world]

/-! ## Claims on `measure::mean` over a sequence -/

theorem measure.mean_vec_entry {σ : Type} (tp : TimeTp) (num_iters : Nat)
    (funcs : List (Callable σ)) :
    ∀ (w : World σ) (i : Nat) (func : Callable σ), funcs[i]? = some func →
      (measure.mean_vec tp num_iters funcs w).1[i]? =
        some (measure.mean tp num_iters func
          (measure.mean_vec tp num_iters (funcs.take i) w).2).1 := by
  induction funcs with
  | nil => intro w i func h; simp at h
  | cons f fs ih =>
    intro w i func h
    cases i with
    | zero =>
      simp only [List.getElem?_cons_zero, Option.some.injEq] at h
      subst h
      simp [measure.mean_vec]
    | succ i =>
      simp only [List.getElem?_cons_succ] at h
      simp only [measure.mean_vec, List.getElem?_cons_succ, List.take_succ_cons]
      exact ih _ i func h

/-- C14: for `num_iters >= 1`, `measure::mean` over a sequence returns as many entries as
there are callables, and entry `i` is the scalar `measure::mean` of `funcs[i]`, run in
the world the earlier callables left: the sum of the `num_iters` samples of callable `i`
itself, divided by `num_iters`. -/
theorem measure.mean_vec_is_pointwise_mean {σ : Type} (tp : TimeTp) (num_iters : Nat)
    (funcs : List (Callable σ)) (w : World σ) (hn : 1 ≤ num_iters) :
    (measure.mean_vec tp num_iters funcs w).1.length = funcs.length ∧
    ∀ (i : Nat) (func : Callable σ), funcs[i]? = some func →
      (measure.mean_vec tp num_iters funcs w).1[i]? =
        some (measure.mean tp num_iters func
          (measure.mean_vec tp num_iters (funcs.take i) w).2).1 ∧
      (measure.mean_vec tp num_iters funcs w).1[i]? =
        some (LongDouble.ofDiv
          (wrap64 (measure.samples tp func num_iters
            (measure.mean_vec tp num_iters (funcs.take i) w).2).sum) num_iters) ∧
      (measure.mean_vec tp num_iters (funcs.take i) w).2 =
        run_all (execution_order num_iters (funcs.take i)) w := by
  refine ⟨measure.mean_vec_length tp num_iters funcs w, ?_⟩
  intro i func hi
  have h := measure.mean_vec_entry tp num_iters funcs w i func hi
  refine ⟨h, ?_, measure.mean_vec_world tp num_iters hn _ w⟩
  rw [h, measure.mean_eq_ofDiv_samples tp num_iters func _ hn]

theorem measure.mean_vec_is_pointwise_mean_witness :
    (measure.mean_vec TimeTp.nanoseconds 2 [scripted, scripted] ⟨0, [1, 2, 10, 30]⟩).1 =
      [LongDouble.finite (3 / 2), LongDouble.finite 20] ∧
    ((measure.mean_vec TimeTp.nanoseconds 2 [scripted, scripted] ⟨0, [1, 2, 10, 30]⟩).1.length =
      [scripted, scripted].length ∧
    ∀ (i : Nat) (func : Callable (List Int)), [scripted, scripted][i]? = some func →
      (measure.mean_vec TimeTp.nanoseconds 2 [scripted, scripted] ⟨0, [1, 2, 10, 30]⟩).1[i]? =
        some (measure.mean TimeTp.nanoseconds 2 func
          (measure.mean_vec TimeTp.nanoseconds 2 ([scripted, scripted].take i)
            ⟨0, [1, 2, 10, 30]⟩).2).1 ∧
      (measure.mean_vec TimeTp.nanoseconds 2 [scripted, scripted] ⟨0, [1, 2, 10, 30]⟩).1[i]? =
        some (LongDouble.ofDiv
          (wrap64 (measure.samples TimeTp.nanoseconds func 2
            (measure.mean_vec TimeTp.nanoseconds 2 ([scripted, scripted].take i)
              ⟨0, [1, 2, 10, 30]⟩).2).sum) 2) ∧
      (measure.mean_vec TimeTp.nanoseconds 2 ([scripted, scripted].take i)
          ⟨0, [1, 2, 10, 30]⟩).2 =
        run_all (execution_order 2 ([scripted, scripted].take i)) ⟨0, [1, 2, 10, 30]⟩) :=
  ⟨by decide!,
    measure.mean_vec_is_pointwise_mean TimeTp.nanoseconds 2 [scripted, scripted]
      ⟨0, [1, 2, 10, 30]⟩ (by decide)⟩

/-! ## Validity of the index of `compare::fastest` and `compare::slowest` -/

theorem min_element_loop_lt (xs : List LongDouble) :
    ∀ (i s : Nat) (sv : LongDouble), s < i → min_element_loop xs i s sv < i + xs.length := by
  induction xs with
  | nil => intro i s sv h; simpa [min_element_loop] using h
  | cons x xs ih =>
    intro i s sv h
    simp only [min_element_loop, List.length_cons]
    split
    · have := ih (i + 1) i x (Nat.lt_succ_self i)
      omega
    · have := ih (i + 1) s sv (by omega)
      omega

theorem max_element_loop_lt (xs : List LongDouble) :
    ∀ (i s : Nat) (sv : LongDouble), s < i → max_element_loop xs i s sv < i + xs.length := by
  induction xs with
  | nil => intro i s sv h; simpa [max_element_loop] using h
  | cons x xs ih =>
    intro i s sv h
    simp only [max_element_loop, List.length_cons]
    split
    · have := ih (i + 1) i x (Nat.lt_succ_self i)
      omega
    · have := ih (i + 1) s sv (by omega)
      omega

theorem min_element_lt_length (d : List LongDouble) (hne : d ≠ []) :
    min_element d < d.length := by
  cases d with
  | nil => exact absurd rfl hne
  | cons x xs =>
    have := min_element_loop_lt xs 1 0 x (by decide)
    simp only [min_element, List.length_cons]
    omega

theorem max_element_lt_length (d : List LongDouble) (hne : d ≠ []) :
    max_element d < d.length := by
  cases d with
  | nil => exact absurd rfl hne
  | cons x xs =>
    have := max_element_loop_lt xs 1 0 x (by decide)
    simp only [max_element, List.length_cons]
    omega

/-- C19: for a non-empty sequence of `N` callables the indices returned by
`compare::fastest` and `compare::slowest` are below `N`, whatever the measurements
(NaN included); for the empty sequence both return 0 without failing and without
running anything, although the input has no position 0. -/
theorem compare.extreme_index_validity {σ : Type} (num_iters : Nat)
    (funcs : List (Callable σ)) (w : World σ) :
    (funcs ≠ [] → (compare.fastest num_iters funcs w).1 < funcs.length ∧
      (compare.slowest num_iters funcs w).1 < funcs.length) ∧
    compare.fastest num_iters ([] : List (Callable σ)) w = (0, w) ∧
    compare.slowest num_iters ([] : List (Callable σ)) w = (0, w) ∧
    ¬ (0 < ([] : List (Callable σ)).length) := by
  refine ⟨?_, rfl, rfl, by simp⟩
  intro hne
  have hl := measure.mean_vec_length TimeTp.nanoseconds num_iters funcs w
  have hne1 := measure.mean_vec_ne_nil TimeTp.nanoseconds num_iters funcs w hne
  simp only [compare.fastest, compare.slowest]
  rw [← hl]
  exact ⟨min_element_lt_length _ hne1, max_element_lt_length _ hne1⟩

theorem compare.extreme_index_validity_witness :
    (measure.mean_vec TimeTp.nanoseconds 0 [takes 0, takes 5] w0).1 =
      [LongDouble.nan, LongDouble.posInf] ∧
    (compare.fastest 0 [takes 0, takes 5] w0).1 < [takes 0, takes 5].length ∧
    (compare.slowest 0 [takes 0, takes 5] w0).1 < [takes 0, takes 5].length :=
  ⟨by decide!,
    (compare.extreme_index_validity 0 [takes 0, takes 5] w0).1 (by simp)⟩

/-! ## Entries of the map when durations tie -/

theorem LongDouble.ne_of_lt {a b : LongDouble} (h : LongDouble.lt a b = true) : a ≠ b := by
  intro hab
  rw [hab, LongDouble.lt_irreflexive] at h
  cases h

/-- Entries after `m[k] = v`: the new entry, and the old entries under other keys. -/
theorem StdMap.mem_assign_iff {V : Type} (k : LongDouble) (v : V)
    (m : List (LongDouble × V)) (p : LongDouble × V)
    (hm : m.Pairwise (fun a b => LongDouble.lt a.1 b.1 = true))
    (hk : k ≠ LongDouble.nan) (hmn : ∀ q ∈ m, q.1 ≠ LongDouble.nan) :
    p ∈ StdMap.assign LongDouble.lt k v m ↔ p = (k, v) ∨ (p ∈ m ∧ p.1 ≠ k) := by
  induction m with
  | nil => simp [StdMap.assign]
  | cons hd tl ih =>
    obtain ⟨k', v'⟩ := hd
    rw [List.pairwise_cons] at hm
    have ih1 := ih hm.2 (fun q hq => hmn q (List.mem_cons_of_mem _ hq))
    simp only [StdMap.assign]
    split
    · rename_i hlt
      constructor
      · intro hp
        rcases List.mem_cons.1 hp with h | h
        · exact Or.inl h
        · refine Or.inr ⟨h, ?_⟩
          rcases List.mem_cons.1 h with h1 | h1
          · rw [h1]; exact (LongDouble.ne_of_lt hlt).symm
          · exact (LongDouble.ne_of_lt (LongDouble.lt_transitive hlt (hm.1 p h1))).symm
      · intro hp
        rcases hp with h | ⟨h, _⟩
        · rw [h]; exact List.mem_cons_self _ _
        · exact List.mem_cons_of_mem _ h
    · split
      · rename_i hgt
        constructor
        · intro hp
          rcases List.mem_cons.1 hp with h | h
          · refine Or.inr ⟨by rw [h]; exact List.mem_cons_self _ _, ?_⟩
            rw [h]; exact LongDouble.ne_of_lt hgt
          · rcases ih1.1 h with h1 | ⟨h1, h2⟩
            · exact Or.inl h1
            · exact Or.inr ⟨List.mem_cons_of_mem _ h1, h2⟩
        · intro hp
          rcases hp with h | ⟨h, hne⟩
          · exact List.mem_cons_of_mem _ (ih1.2 (Or.inl h))
          · rcases List.mem_cons.1 h with h1 | h1
            · rw [h1]; exact List.mem_cons_self _ _
            · exact List.mem_cons_of_mem _ (ih1.2 (Or.inr ⟨h1, hne⟩))
      · rename_i h1 h2
        have hk' : k' ≠ LongDouble.nan := hmn (k', v') (List.mem_cons_self _ _)
        have heq : k = k' := by
          rcases LongDouble.lt_or_eq_or_gt hk hk' with h | h | h
          · exact absurd h h1
          · exact h
          · exact absurd h h2
        subst heq
        constructor
        · intro hp
          rcases List.mem_cons.1 hp with h | h
          · exact Or.inl h
          · exact Or.inr ⟨List.mem_cons_of_mem _ h, (LongDouble.ne_of_lt (hm.1 p h)).symm⟩
        · intro hp
          rcases hp with h | ⟨h, hne⟩
          · rw [h]; exact List.mem_cons_self _ _
          · rcases List.mem_cons.1 h with h3 | h3
            · rw [h3] at hne; exact absurd rfl hne
            · exact List.mem_cons_of_mem _ h3

/-- The entries of the map of `compare::sort` after `n` assignments: position `i < n`
is present, under its own duration, exactly when no later position below `n` has an
equal duration. -/
theorem compare.mem_sorted_map_iff (d : List LongDouble) (hnan : LongDouble.nan ∉ d)
    (n : Nat) (p : LongDouble × Nat) :
    p ∈ compare.sorted_map n d ↔
      p.2 < n ∧ p.1 = d.getD p.2 (LongDouble.finite 0) ∧
      ∀ j, p.2 < j → j < n →
        d.getD j (LongDouble.finite 0) ≠ d.getD p.2 (LongDouble.finite 0) := by
  induction n generalizing p with
  | zero => simp [compare.sorted_map]
  | succ n ih =>
    rw [compare.sorted_map_succ,
      StdMap.mem_assign_iff _ _ _ _ (compare.sorted_map_pairwise n d)
        (LongDouble.getD_ne_nan d hnan n)
        (fun q hq => by rw [((ih q).1 hq).2.1]; exact LongDouble.getD_ne_nan d hnan _)]
    constructor
    · intro hp
      rcases hp with h | ⟨h, hne⟩
      · subst h
        refine ⟨Nat.lt_succ_self n, rfl, ?_⟩
        intro j h1 h2
        simp only at h1
        omega
      · obtain ⟨h1, h2, h3⟩ := (ih p).1 h
        refine ⟨by omega, h2, ?_⟩
        intro j hj1 hj2
        by_cases hjn : j = n
        · subst hjn
          rw [← h2]
          exact fun hc => hne hc.symm
        · exact h3 j hj1 (by omega)
    · intro hp
      obtain ⟨h1, h2, h3⟩ := hp
      by_cases hpn : p.2 = n
      · left
        rw [hpn] at h2
        exact Prod.ext h2 hpn
      · right
        have hlt : p.2 < n := by omega
        refine ⟨(ih p).2 ⟨hlt, h2, fun j hj1 hj2 => h3 j hj1 (by omega)⟩, ?_⟩
        rw [h2]
        exact fun hc => h3 n hlt (Nat.lt_succ_self n) hc.symm

/-- Every entry of the map of `compare::sort` carries the duration of its position. -/
theorem compare.sorted_map_eq_map_indices (d : List LongDouble)
    (hnan : LongDouble.nan ∉ d) (n : Nat) :
    compare.sorted_map n d =
      ((compare.sorted_map n d).map Prod.snd).map
        (fun i => (d.getD i (LongDouble.finite 0), i)) := by
  rw [List.map_map]
  conv_lhs => rw [← List.map_id (compare.sorted_map n d)]
  apply List.map_congr_left
  intro p hp
  have h := ((compare.mem_sorted_map_iff d hnan n p).1 hp).2.1
  exact Prod.ext h rfl

/-- The positions in the map are in strictly ascending order of duration. -/
theorem compare.ranking_pairwise (d : List LongDouble) (hnan : LongDouble.nan ∉ d)
    (n : Nat) :
    ((compare.sorted_map n d).map Prod.snd).Pairwise
      (fun i j => LongDouble.lt (d.getD i (LongDouble.finite 0))
        (d.getD j (LongDouble.finite 0)) = true) := by
  rw [List.pairwise_map]
  refine (compare.sorted_map_pairwise n d).imp_of_mem ?_
  intro a b ha hb hab
  rw [((compare.mem_sorted_map_iff d hnan n a).1 ha).2.1,
    ((compare.mem_sorted_map_iff d hnan n b).1 hb).2.1] at hab
  exact hab

/-- A position is in the ranking exactly when no later position has an equal duration. -/
theorem compare.mem_ranking_iff (d : List LongDouble) (hnan : LongDouble.nan ∉ d)
    (i : Nat) :
    i ∈ (compare.sorted_map d.length d).map Prod.snd ↔
      i < d.length ∧ ∀ j, i < j → j < d.length → d[j]? ≠ d[i]? := by
  constructor
  · intro hi
    obtain ⟨p, hp, hpi⟩ := List.mem_map.1 hi
    obtain ⟨h1, _, h3⟩ := (compare.mem_sorted_map_iff d hnan d.length p).1 hp
    rw [hpi] at h1 h3
    refine ⟨h1, ?_⟩
    intro j hj1 hj2 hc
    apply h3 j hj1 hj2
    rw [List.getD_eq_getElem d _ hj2, List.getD_eq_getElem d _ h1]
    rw [List.getElem?_eq_getElem hj2, List.getElem?_eq_getElem h1] at hc
    exact Option.some.inj hc
  · intro hi
    obtain ⟨h1, h3⟩ := hi
    refine List.mem_map.2 ⟨(d.getD i (LongDouble.finite 0), i), ?_, rfl⟩
    refine (compare.mem_sorted_map_iff d hnan d.length _).2 ⟨h1, rfl, ?_⟩
    intro j hj1 hj2 hc
    simp only at hj1
    apply h3 j hj1 hj2
    simp only at hc
    rw [List.getD_eq_getElem d _ hj2, List.getD_eq_getElem d _ h1] at hc
    rw [List.getElem?_eq_getElem hj2, List.getElem?_eq_getElem h1, hc]

/-- The keys after `n` assignments are the durations of the positions below `n`. -/
theorem compare.key_mem_sorted_map_iff (d : List LongDouble) (hnan : LongDouble.nan ∉ d)
    (n : Nat) (k : LongDouble) :
    k ∈ (compare.sorted_map n d).map Prod.fst ↔
      ∃ i, i < n ∧ d.getD i (LongDouble.finite 0) = k := by
  constructor
  · intro hk
    obtain ⟨p, hp, hpk⟩ := List.mem_map.1 hk
    obtain ⟨h1, h2, _⟩ := (compare.mem_sorted_map_iff d hnan n p).1 hp
    exact ⟨p.2, h1, by rw [← h2, hpk]⟩
  · induction n with
    | zero => rintro ⟨i, hi, _⟩; omega
    | succ n ih =>
      rintro ⟨i, hi, hik⟩
      have hiff := fun p => StdMap.mem_assign_iff (d.getD n (LongDouble.finite 0)) n
        (compare.sorted_map n d) p (compare.sorted_map_pairwise n d)
        (LongDouble.getD_ne_nan d hnan n)
        (fun q hq => by
          rw [((compare.mem_sorted_map_iff d hnan n q).1 hq).2.1]
          exact LongDouble.getD_ne_nan d hnan _)
      rw [compare.sorted_map_succ]
      by_cases hkn : d.getD n (LongDouble.finite 0) = k
      · exact List.mem_map.2 ⟨(d.getD n (LongDouble.finite 0), n), (hiff _).2 (Or.inl rfl), hkn⟩
      · have hin : i < n := by
          rcases Nat.lt_succ_iff_lt_or_eq.1 hi with h | h
          · exact h
          · rw [h] at hik; exact absurd hik hkn
        obtain ⟨p, hp, hpk⟩ := List.mem_map.1 (ih ⟨i, hin, hik⟩)
        exact List.mem_map.2 ⟨p, (hiff p).2 (Or.inr ⟨hp, by rw [hpk]; exact fun h => hkn h.symm⟩),
          hpk⟩

/-- The durations of the ranked positions are the distinct durations, each once. -/
theorem compare.ranking_durations_perm_dedup (d : List LongDouble)
    (hnan : LongDouble.nan ∉ d) :
    (((compare.sorted_map d.length d).map Prod.snd).map
      (fun i => d.getD i (LongDouble.finite 0))).Perm d.dedup := by
  have hkeys : ((compare.sorted_map d.length d).map Prod.snd).map
      (fun i => d.getD i (LongDouble.finite 0)) =
      (compare.sorted_map d.length d).map Prod.fst := by
    conv_rhs => rw [compare.sorted_map_eq_map_indices d hnan d.length]
    simp [List.map_map, Function.comp_def]
  rw [hkeys]
  have hnd : ((compare.sorted_map d.length d).map Prod.fst).Nodup := by
    rw [List.Nodup, List.pairwise_map]
    exact (compare.sorted_map_pairwise d.length d).imp (fun h => LongDouble.ne_of_lt h)
  refine (List.perm_ext_iff_of_nodup hnd (List.nodup_dedup d)).2 ?_
  intro k
  rw [compare.key_mem_sorted_map_iff d hnan, List.mem_dedup, List.mem_iff_getElem]
  constructor
  · rintro ⟨i, hi, hik⟩
    exact ⟨i, hi, by rw [← hik, List.getD_eq_getElem d _ hi]⟩
  · rintro ⟨i, hi, hik⟩
    exact ⟨i, hi, by rw [← hik, List.getD_eq_getElem d _ hi]⟩

theorem List.dedup_length_lt_of_not_nodup (d : List LongDouble) (h : ¬ d.Nodup) :
    d.dedup.length < d.length := by
  rcases Nat.lt_or_ge d.dedup.length d.length with hlt | hge
  · exact hlt
  · exfalso
    have hle := (List.dedup_sublist d).length_le
    have heq := (List.dedup_sublist d).eq_of_length (by omega)
    exact h (List.dedup_eq_self.1 heq)

/-- The text written by `report::comparison`, in terms of the ranking of the durations
at the resolution of the reporter. -/
theorem report.comparison_eq_ranking {σ : Type} (fmt : LongDouble → String)
    (tp : TimeTp) (os : String) (names : List String) (num_iters : Nat)
    (funcs : List (Callable σ)) (w : World σ)
    (hlen : funcs.length ≤ names.length)
    (hnan : LongDouble.nan ∉ (measure.mean_vec tp num_iters funcs w).1) :
    report.comparison fmt tp os names num_iters funcs w =
      some (os ++ String.join
        (((compare.sorted_map (measure.mean_vec tp num_iters funcs w).1.length
            (measure.mean_vec tp num_iters funcs w).1).map Prod.snd).map
          (fun i => report.line fmt tp (names.getD i "") num_iters
            ((measure.mean_vec tp num_iters funcs w).1.getD i (LongDouble.finite 0)))),
        (measure.mean_vec tp num_iters funcs w).2) := by
  have hl := measure.mean_vec_length tp num_iters funcs w
  simp only [report.comparison]
  generalize (measure.mean_vec tp num_iters funcs w).2 = w1
  generalize (measure.mean_vec tp num_iters funcs w).1 = d at *
  rw [report.sorted_map_eq names d (by omega)]
  simp only [List.foldl_map, List.map_map]
  rw [← List.foldl_map (fun (p : LongDouble × Nat) =>
    report.line fmt tp (names.getD p.2 "") num_iters p.1) (fun r s => r ++ s),
    String.foldl_append_eq]
  congr 3
  apply congrArg String.join
  apply List.map_congr_left
  intro p hp
  have h := ((compare.mem_sorted_map_iff d hnan d.length p).1 hp).2.1
  simp [h]

/-! ## Claims on ties -/

/-- C16: `compare::sort` returns exactly one index per distinct mean value (the means of
the returned indices are the distinct means, each once) and `report::comparison` writes
exactly one line per distinct mean value; hence when two callables have equal means
there are fewer than `N` entries. Means are numbers (none NaN) and there are as many
names as callables. -/
theorem compare.ties_collapse {σ : Type} (fmt : LongDouble → String) (tp : TimeTp)
    (os : String) (names : List String) (num_iters : Nat) (funcs : List (Callable σ))
    (w : World σ) (hlen : names.length = funcs.length)
    (hns : LongDouble.nan ∉ (measure.mean_vec TimeTp.nanoseconds num_iters funcs w).1)
    (htp : LongDouble.nan ∉ (measure.mean_vec tp num_iters funcs w).1) :
    (((compare.sort num_iters funcs w).1.map (fun i =>
        (measure.mean_vec TimeTp.nanoseconds num_iters funcs w).1.getD i
          (LongDouble.finite 0))).Perm
        (measure.mean_vec TimeTp.nanoseconds num_iters funcs w).1.dedup ∧
      (compare.sort num_iters funcs w).1.length =
        (measure.mean_vec TimeTp.nanoseconds num_iters funcs w).1.dedup.length ∧
      (¬ (measure.mean_vec TimeTp.nanoseconds num_iters funcs w).1.Nodup →
        (compare.sort num_iters funcs w).1.length < funcs.length)) ∧
    ∃ ranking : List Nat,
      (ranking.map (fun i =>
        (measure.mean_vec tp num_iters funcs w).1.getD i (LongDouble.finite 0))).Perm
        (measure.mean_vec tp num_iters funcs w).1.dedup ∧
      ranking.length = (measure.mean_vec tp num_iters funcs w).1.dedup.length ∧
      (¬ (measure.mean_vec tp num_iters funcs w).1.Nodup → ranking.length < funcs.length) ∧
      report.comparison fmt tp os names num_iters funcs w =
        some (os ++ String.join (ranking.map (fun i =>
            report.line fmt tp (names.getD i "") num_iters
              ((measure.mean_vec tp num_iters funcs w).1.getD i (LongDouble.finite 0)))),
          (measure.mean_vec tp num_iters funcs w).2) := by
  have hcmp := report.comparison_eq_ranking fmt tp os names num_iters funcs w (by omega) htp
  have hl1 := measure.mean_vec_length TimeTp.nanoseconds num_iters funcs w
  have hl2 := measure.mean_vec_length tp num_iters funcs w
  have key : ∀ d : List LongDouble, LongDouble.nan ∉ d →
      (((compare.sorted_map d.length d).map Prod.snd).map
        (fun i => d.getD i (LongDouble.finite 0))).Perm d.dedup ∧
      ((compare.sorted_map d.length d).map Prod.snd).length = d.dedup.length ∧
      (¬ d.Nodup → ((compare.sorted_map d.length d).map Prod.snd).length < d.length) := by
    intro d hd
    have hp := compare.ranking_durations_perm_dedup d hd
    have hlen : ((compare.sorted_map d.length d).map Prod.snd).length = d.dedup.length := by
      simpa using hp.length_eq
    exact ⟨hp, hlen, fun h => by rw [hlen]; exact List.dedup_length_lt_of_not_nodup d h⟩
  constructor
  · have h := key _ hns
    simp only [compare.sort]
    rw [hl1] at h
    exact h
  · have h := key _ htp
    refine ⟨_, h.1, h.2.1, ?_, hcmp⟩
    rw [← hl2]
    exact h.2.2

theorem compare.ties_collapse_witness :
    (measure.mean_vec TimeTp.nanoseconds 1 [takes 5, takes 5, takes 7] w0).1 =
      [LongDouble.finite 5, LongDouble.finite 5, LongDouble.finite 7] ∧
    (compare.sort 1 [takes 5, takes 5, takes 7] w0).1 = [1, 2] ∧
    report.comparison fmt_sample TimeTp.nanoseconds "" ["a", "b", "c"] 1
      [takes 5, takes 5, takes 7] w0 = some ("b, 1, 5, ns\nc, 1, 7, ns\n", ⟨17, ()⟩) ∧
    ((((compare.sort 1 [takes 5, takes 5, takes 7] w0).1.map (fun i =>
        (measure.mean_vec TimeTp.nanoseconds 1 [takes 5, takes 5, takes 7] w0).1.getD i
          (LongDouble.finite 0))).Perm
        (measure.mean_vec TimeTp.nanoseconds 1 [takes 5, takes 5, takes 7] w0).1.dedup ∧
      (compare.sort 1 [takes 5, takes 5, takes 7] w0).1.length =
        (measure.mean_vec TimeTp.nanoseconds 1 [takes 5, takes 5, takes 7] w0).1.dedup.length ∧
      (¬ (measure.mean_vec TimeTp.nanoseconds 1 [takes 5, takes 5, takes 7] w0).1.Nodup →
        (compare.sort 1 [takes 5, takes 5, takes 7] w0).1.length <
          [takes 5, takes 5, takes 7].length)) ∧
    ∃ ranking : List Nat,
      (ranking.map (fun i =>
        (measure.mean_vec TimeTp.nanoseconds 1 [takes 5, takes 5, takes 7] w0).1.getD i
          (LongDouble.finite 0))).Perm
        (measure.mean_vec TimeTp.nanoseconds 1 [takes 5, takes 5, takes 7] w0).1.dedup ∧
      ranking.length =
        (measure.mean_vec TimeTp.nanoseconds 1 [takes 5, takes 5, takes 7] w0).1.dedup.length ∧
      (¬ (measure.mean_vec TimeTp.nanoseconds 1 [takes 5, takes 5, takes 7] w0).1.Nodup →
        ranking.length < [takes 5, takes 5, takes 7].length) ∧
      report.comparison fmt_sample TimeTp.nanoseconds "" ["a", "b", "c"] 1
          [takes 5, takes 5, takes 7] w0 =
        some ("" ++ String.join (ranking.map (fun i =>
            report.line fmt_sample TimeTp.nanoseconds (["a", "b", "c"].getD i "") 1
              ((measure.mean_vec TimeTp.nanoseconds 1 [takes 5, takes 5, takes 7] w0).1.getD i
                (LongDouble.finite 0)))),
          (measure.mean_vec TimeTp.nanoseconds 1 [takes 5, takes 5, takes 7] w0).2)) :=
  ⟨by decide!, by decide!, by decide!,
    compare.ties_collapse fmt_sample TimeTp.nanoseconds "" ["a", "b", "c"] 1
      [takes 5, takes 5, takes 7] w0 (by decide) (by decide!) (by decide!)⟩

/-- C18: an index `i` is in the output of `compare::sort` exactly when it is a position
of the input and no later position has the same mean (of each group of tied callables
the last in input order is kept); `report::comparison` writes its lines, in strictly
ascending order of mean, for exactly those positions of its own means, so for each
distinct mean the name printed is that of the last callable having it. Means are
numbers (none NaN) and there are as many names as callables. -/
theorem compare.tie_keeps_last_index {σ : Type} (fmt : LongDouble → String) (tp : TimeTp)
    (os : String) (names : List String) (num_iters : Nat) (funcs : List (Callable σ))
    (w : World σ) (hlen : names.length = funcs.length)
    (hns : LongDouble.nan ∉ (measure.mean_vec TimeTp.nanoseconds num_iters funcs w).1)
    (htp : LongDouble.nan ∉ (measure.mean_vec tp num_iters funcs w).1) :
    (∀ i, i ∈ (compare.sort num_iters funcs w).1 ↔
      i < funcs.length ∧ ∀ j, i < j → j < funcs.length →
        (measure.mean_vec TimeTp.nanoseconds num_iters funcs w).1[j]? ≠
          (measure.mean_vec TimeTp.nanoseconds num_iters funcs w).1[i]?) ∧
    ∃ ranking : List Nat,
      (∀ i, i ∈ ranking ↔
        i < funcs.length ∧ ∀ j, i < j → j < funcs.length →
          (measure.mean_vec tp num_iters funcs w).1[j]? ≠
            (measure.mean_vec tp num_iters funcs w).1[i]?) ∧
      ranking.Pairwise (fun i j =>
        LongDouble.lt ((measure.mean_vec tp num_iters funcs w).1.getD i (LongDouble.finite 0))
          ((measure.mean_vec tp num_iters funcs w).1.getD j (LongDouble.finite 0)) = true) ∧
      report.comparison fmt tp os names num_iters funcs w =
        some (os ++ String.join (ranking.map (fun i =>
            report.line fmt tp (names.getD i "") num_iters
              ((measure.mean_vec tp num_iters funcs w).1.getD i (LongDouble.finite 0)))),
          (measure.mean_vec tp num_iters funcs w).2) := by
  have hcmp := report.comparison_eq_ranking fmt tp os names num_iters funcs w (by omega) htp
  have hl1 := measure.mean_vec_length TimeTp.nanoseconds num_iters funcs w
  have hl2 := measure.mean_vec_length tp num_iters funcs w
  constructor
  · intro i
    have h := compare.mem_ranking_iff _ hns i
    simp only [compare.sort]
    rw [hl1] at h
    exact h
  · refine ⟨_, ?_, compare.ranking_pairwise _ htp _, hcmp⟩
    intro i
    have h := compare.mem_ranking_iff _ htp i
    rw [hl2] at h
    rw [hl2]
    exact h

theorem compare.tie_keeps_last_index_witness :
    (compare.sort 1 [takes 5, takes 7, takes 5, takes 7] w0).1 = [2, 3] ∧
    report.comparison fmt_sample TimeTp.nanoseconds "" ["a", "b", "c", "d"] 1
      [takes 5, takes 7, takes 5, takes 7] w0 =
        some ("c, 1, 5, ns\nd, 1, 7, ns\n", ⟨24, ()⟩) ∧
    ((∀ i, i ∈ (compare.sort 1 [takes 5, takes 7, takes 5, takes 7] w0).1 ↔
      i < [takes 5, takes 7, takes 5, takes 7].length ∧
        ∀ j, i < j → j < [takes 5, takes 7, takes 5, takes 7].length →
        (measure.mean_vec TimeTp.nanoseconds 1 [takes 5, takes 7, takes 5, takes 7] w0).1[j]? ≠
          (measure.mean_vec TimeTp.nanoseconds 1 [takes 5, takes 7, takes 5, takes 7] w0).1[i]?) ∧
    ∃ ranking : List Nat,
      (∀ i, i ∈ ranking ↔
        i < [takes 5, takes 7, takes 5, takes 7].length ∧
          ∀ j, i < j → j < [takes 5, takes 7, takes 5, takes 7].length →
          (measure.mean_vec TimeTp.nanoseconds 1 [takes 5, takes 7, takes 5, takes 7] w0).1[j]? ≠
            (measure.mean_vec TimeTp.nanoseconds 1
              [takes 5, takes 7, takes 5, takes 7] w0).1[i]?) ∧
      ranking.Pairwise (fun i j =>
        LongDouble.lt
          ((measure.mean_vec TimeTp.nanoseconds 1 [takes 5, takes 7, takes 5, takes 7] w0).1.getD
            i (LongDouble.finite 0))
          ((measure.mean_vec TimeTp.nanoseconds 1 [takes 5, takes 7, takes 5, takes 7] w0).1.getD
            j (LongDouble.finite 0)) = true) ∧
      report.comparison fmt_sample TimeTp.nanoseconds "" ["a", "b", "c", "d"] 1
          [takes 5, takes 7, takes 5, takes 7] w0 =
        some ("" ++ String.join (ranking.map (fun i =>
            report.line fmt_sample TimeTp.nanoseconds (["a", "b", "c", "d"].getD i "") 1
              ((measure.mean_vec TimeTp.nanoseconds 1
                [takes 5, takes 7, takes 5, takes 7] w0).1.getD i (LongDouble.finite 0)))),
          (measure.mean_vec TimeTp.nanoseconds 1 [takes 5, takes 7, takes 5, takes 7] w0).2)) :=
  ⟨by decide!, by decide!,
    compare.tie_keeps_last_index fmt_sample TimeTp.nanoseconds "" ["a", "b", "c", "d"] 1
      [takes 5, takes 7, takes 5, takes 7] w0 (by decide) (by decide!) (by decide!)⟩

/-! ## The vector overload of `measure::once` -/

/-- C15 (the code at the failing input): the vector overload of `measure::once` writes
into a vector it declared `const`; it has no instantiation, so for one callable there
is no result of length 1 holding that callable's count. -/
theorem measure.once_vec_returns_nothing :
    measure.once_vec TimeTp.nanoseconds [takes 5] w0 = none ∧
    ∀ counts : List Int × World Unit,
      measure.once_vec TimeTp.nanoseconds [takes 5] w0 ≠ some counts := by
  refine ⟨rfl, ?_⟩
  intro counts h
  cases h

end benchmark
